import Mathlib

/-!
Shallow embedding of the e-book assembly and merge engine of
`webnovel2epub.py` and `merge_books.py`.

Python strings are modelled as `List Char` (`Str`), bytes as `List Nat`.
The post-extraction merge pipeline of `merge_books._main` (lines 110-163)
is modelled by `mergeBooks`; the metadata dictionary produced by
`extract_book_metadata` is modelled by `Meta`, with `cover` as an optional
(name, bytes) pair — `extract_book_metadata` sets name and data together
or leaves both `None`, so the Python pair `(cover_name, cover_data)` is
`Option (Str × List Nat)` and Python tuple equality coincides with
`Option` equality.
-/

namespace Webnovel

abbrev Str := List Char

def str (s : String) : Str := s.toList

/-- A chapter record `(title, number, content)` as used throughout both
scripts. -/
structure Chapter where
  title : Str
  number : Nat
  content : Str
deriving DecidableEq, Repr

/-- The metadata dictionary returned by `extract_book_metadata`
(merge_books.py lines 12-38). -/
structure Meta where
  title : Str
  creator : Str
  language : Str
  description : Str
  cover : Option (Str × List Nat)
deriving DecidableEq, Repr

/-- A metadata dictionary whose `cover` entry has been replaced by the
match/mismatch marker string (merge_books.py lines 115-119). -/
structure MetaDiag where
  title : Str
  creator : Str
  language : Str
  description : Str
  cover : Str
deriving DecidableEq, Repr

/-- merge_books.py lines 115-117: the marker replacing the cover pair in the
mismatch diagnostic. -/
def coverMarker (c1 c2 : Option (Str × List Nat)) : Str :=
  if c1 = c2 then str "__cover_match__" else str "__cover_*mis*match__"

def mkDiag (m : Meta) (marker : Str) : MetaDiag :=
  { title := m.title, creator := m.creator, language := m.language,
    description := m.description, cover := marker }

/-- The distinct failure modes of `merge_books._main`.  `indexError` models
the `IndexError` raised by `chapters[0]` / `chapters[-1]` on an empty
chapter list; `assertionError` models the `assert` on line 148 (including
the `IndexError` raised inside it by `book2_chapters[0]` when the
reconciliation dropped all of book2's chapters). -/
inductive MergeError where
  | metadataMismatch (d1 d2 : MetaDiag)
  | indexError
  | nonMonotonic (bEnd aEnd : Nat)
  | discontinuous (aStart aEnd bStart bEnd : Nat)
  | assertionError
deriving DecidableEq, Repr

/-- merge_books.py `_main`, lines 113-159, modelled after both books have
been read and their metadata extracted.  Mirrors the control flow exactly:
1. unless `force`, dictionary equality of the two metadata values (line 114);
2. ends of both chapter lists (lines 127-130, `IndexError` when empty);
3. monotonicity `book2_chapter_end >= book1_chapter_end` (line 132);
4. overlap reconciliation dropping `diff` leading chapters of book2 and
   reassigning `book2_chapter_start` (lines 142-148) — after which the
   contiguity test on line 150 compares against the reassigned value and
   is vacuously satisfied, so only the `assert` can fail on this path;
5. contiguity test (line 150) on the non-overlap path;
6. concatenation (lines 157-159). -/
def mergeBooks (m1 m2 : Meta) (ch1 ch2 : List Chapter) (force : Bool) :
    Except MergeError (Meta × List Chapter) :=
  if force = false ∧ m1 ≠ m2 then
    .error (.metadataMismatch
      (mkDiag m1 (coverMarker m1.cover m2.cover))
      (mkDiag m2 (coverMarker m1.cover m2.cover)))
  else
    match ch1.head?, ch1.getLast?, ch2.head?, ch2.getLast? with
    | some a1, some a2, some b1, some b2 =>
      let aStart := a1.number
      let aEnd := a2.number
      let bStart := b1.number
      let bEnd := b2.number
      if bEnd < aEnd then .error (.nonMonotonic bEnd aEnd)
      else if bStart ≤ aEnd then
        let diff := aEnd - bStart + 1
        let ch2' := ch2.drop diff
        match ch2'.head? with
        | none => .error .assertionError
        | some c =>
          if aEnd + 1 = c.number then .ok (m1, ch1 ++ ch2')
          else .error .assertionError
      else
        if aEnd + 1 ≠ bStart then
          .error (.discontinuous aStart aEnd bStart bEnd)
        else .ok (m1, ch1 ++ ch2)
    | _, _, _, _ => .error .indexError

/-- The first chapter number of book2 after the reconciliation step
(merge_books.py line 146 reassigns it to `book1_chapter_end + 1` whenever
there is an overlap, and leaves it unchanged otherwise). -/
def reconciledBStart (ch1 ch2 : List Chapter) : Option Nat :=
  match ch1.getLast?, ch2.head? with
  | some a2, some b1 =>
    if b1.number ≤ a2.number then some (a2.number + 1) else some b1.number
  | _, _ => none

/-- §3 metadata equivalence as the spec words it: all fields except `cover`
compare equal by value, and `cover` is compared (byte-equality) only when
both are present. -/
def metaEquivSpec (a b : Meta) : Bool :=
  (a.title == b.title) && (a.creator == b.creator) &&
  (a.language == b.language) && (a.description == b.description) &&
  (match a.cover, b.cover with
   | some (_, da), some (_, db) => da == db
   | _, _ => true)

/-- Chapter numbers of `l` form the contiguous ascending run
`s, s+1, ...`. -/
def contigFrom (s : Nat) : List Chapter → Bool
  | [] => true
  | c :: rest => c.number = s && contigFrom (s + 1) rest

theorem contigFrom_head {s : Nat} {c : Chapter} {l : List Chapter}
    (h : contigFrom s (c :: l) = true) : c.number = s := by
  simp [contigFrom] at h; exact h.1

theorem contigFrom_tail {s : Nat} {c : Chapter} {l : List Chapter}
    (h : contigFrom s (c :: l) = true) : contigFrom (s + 1) l = true := by
  simp [contigFrom] at h; exact h.2

theorem contigFrom_drop {l : List Chapter} :
    ∀ {s : Nat} (j : Nat), contigFrom s l = true →
      contigFrom (s + j) (l.drop j) = true := by
  induction l with
  | nil => intro s j _; simp [contigFrom]
  | cons c rest ih =>
    intro s j h
    cases j with
    | zero => simpa using h
    | succ j' =>
      have hs : s + (j' + 1) = (s + 1) + j' := by omega
      rw [List.drop_succ_cons, hs]
      exact ih j' (contigFrom_tail h)

theorem contigFrom_getLast? {l : List Chapter} :
    ∀ {s : Nat}, contigFrom s l = true → l ≠ [] →
      l.getLast?.map Chapter.number = some (s + l.length - 1) := by
  induction l with
  | nil => intro s _ h; exact absurd rfl h
  | cons c rest ih =>
    intro s h _
    cases rest with
    | nil =>
      have := contigFrom_head h
      simp [List.getLast?, this]
    | cons d rest' =>
      have htl := contigFrom_tail h
      have hlast := ih htl (by simp)
      rw [List.getLast?_cons_cons]
      have hs : s + (c :: d :: rest').length - 1 =
          (s + 1) + (d :: rest').length - 1 := by simp; omega
      rw [hs]
      exact hlast

theorem contigFrom_head? {s : Nat} {l : List Chapter}
    (h : contigFrom s l = true) (hn : l ≠ []) :
    l.head?.map Chapter.number = some s := by
  cases l with
  | nil => exact absurd rfl hn
  | cons c rest => simp [contigFrom_head h]

theorem contig_head_exists {s : Nat} {l : List Chapter}
    (h : contigFrom s l = true) (hn : l ≠ []) :
    ∃ c, l.head? = some c ∧ c.number = s := by
  have := contigFrom_head? h hn
  rcases Option.map_eq_some'.mp this with ⟨c, hc, hcn⟩
  exact ⟨c, hc, hcn⟩

theorem contig_getLast_exists {s : Nat} {l : List Chapter}
    (h : contigFrom s l = true) (hn : l ≠ []) :
    ∃ c, l.getLast? = some c ∧ c.number = s + l.length - 1 := by
  have := contigFrom_getLast? h hn
  rcases Option.map_eq_some'.mp this with ⟨c, hc, hcn⟩
  exact ⟨c, hc, hcn⟩

/-- C1 (amended).  For containers `A` (chapters `a .. a+n-1`) and `B`
(chapters `b .. b+k-1`) with `B.last ≥ A.last`:
(i) if `B.first ≤ A.last` and `B.last > A.last`, the merge drops exactly
`A.last - B.first + 1 = a + n - b` leading chapters of `B` and succeeds;
(ii) if `B.first ≤ A.last` and `B.last = A.last`, the drop consumes all of
`B` and the merge fails with the assertion failure on merge_books.py line
148 (an `IndexError` inside the `assert`), not with
`DiscontinuousChapters`, even though the reconciled first chapter number
equals `A.last + 1`;
(iii) if `B.first > A.last`, the merge succeeds iff `B.first = A.last + 1`
and otherwise fails with `DiscontinuousChapters` carrying both ranges. -/
theorem merge_c1_amended (m : Meta) (force : Bool) (ch1 ch2 : List Chapter)
    (a b : Nat)
    (h1 : contigFrom a ch1 = true) (h2 : contigFrom b ch2 = true)
    (hn1 : ch1 ≠ []) (hn2 : ch2 ≠ [])
    (hmono : a + ch1.length ≤ b + ch2.length) :
    (b ≤ a + ch1.length - 1 → a + ch1.length < b + ch2.length →
      mergeBooks m m ch1 ch2 force =
        .ok (m, ch1 ++ ch2.drop (a + ch1.length - b))) ∧
    (b ≤ a + ch1.length - 1 → a + ch1.length = b + ch2.length →
      mergeBooks m m ch1 ch2 force = .error .assertionError) ∧
    (a + ch1.length - 1 < b →
      mergeBooks m m ch1 ch2 force =
        if a + ch1.length = b then .ok (m, ch1 ++ ch2)
        else .error (.discontinuous a (a + ch1.length - 1) b
          (b + ch2.length - 1))) := by
  have hl1 : 0 < ch1.length := List.length_pos.mpr hn1
  have hl2 : 0 < ch2.length := List.length_pos.mpr hn2
  rcases contig_head_exists h1 hn1 with ⟨a1, ha1, ha1n⟩
  rcases contig_getLast_exists h1 hn1 with ⟨a2, ha2, ha2n⟩
  rcases contig_head_exists h2 hn2 with ⟨b1, hb1, hb1n⟩
  rcases contig_getLast_exists h2 hn2 with ⟨b2, hb2, hb2n⟩
  have hmeta : ¬(force = false ∧ m ≠ m) := by simp
  refine ⟨?_, ?_, ?_⟩
  · -- (i) overlap, B strictly extends A
    intro hov hext
    have hdrop : contigFrom (b + (a + ch1.length - b)) (ch2.drop (a + ch1.length - b)) = true :=
      contigFrom_drop _ h2
    have hble : b ≤ a + ch1.length := by omega
    have hbidx : b + (a + ch1.length - b) = a + ch1.length := by omega
    rw [hbidx] at hdrop
    have hdne : ch2.drop (a + ch1.length - b) ≠ [] := by
      apply List.ne_nil_of_length_pos
      rw [List.length_drop]
      omega
    rcases contig_head_exists hdrop hdne with ⟨c, hc, hcn⟩
    rw [mergeBooks, if_neg hmeta, ha1, ha2, hb1, hb2]
    have hnlt : ¬(b2.number < a2.number) := by omega
    have hle : b1.number ≤ a2.number := by omega
    have hdiff : a2.number - b1.number + 1 = a + ch1.length - b := by omega
    simp only [hnlt, if_false, hle, if_true, hdiff, hc]
    have hnum : a2.number + 1 = c.number := by
      rw [hcn, ha2n]; omega
    simp [hnum]
  · -- (ii) overlap consuming all of B
    intro hov hend
    rw [mergeBooks, if_neg hmeta, ha1, ha2, hb1, hb2]
    have hnlt : ¬(b2.number < a2.number) := by omega
    have hle : b1.number ≤ a2.number := by omega
    have hdiff : a2.number - b1.number + 1 = a + ch1.length - b := by omega
    have hall : ch2.length ≤ a + ch1.length - b := by omega
    have hdnil : ch2.drop (a + ch1.length - b) = [] :=
      List.drop_eq_nil_of_le hall
    simp only [hnlt, if_false, hle, if_true, hdiff, hdnil]
    rfl
  · -- (iii) no overlap
    intro hgap
    rw [mergeBooks, if_neg hmeta, ha1, ha2, hb1, hb2]
    have hnlt : ¬(b2.number < a2.number) := by omega
    have hnle : ¬(b1.number ≤ a2.number) := by omega
    simp only [hnlt, if_false, hnle]
    by_cases hc : a + ch1.length = b
    · have : ¬(a2.number + 1 ≠ b1.number) := by omega
      simp [this, hc]
    · have : a2.number + 1 ≠ b1.number := by omega
      simp only [this, if_true, if_neg hc, ha1n, ha2n, hb1n, hb2n]
      have hne : a + ch1.length - 1 + 1 ≠ b := by omega
      simp [hne]

/-- Concrete metadata value used in the examples below. -/
def mA : Meta :=
  ⟨str "T", str "Auth", str "en", str "Desc", some (str "cover.jpg", [7, 7])⟩

/-- Chapters 1-3. -/
def chA : List Chapter :=
  [⟨str "one", 1, str "x"⟩, ⟨str "two", 2, str "y"⟩,
   ⟨str "three", 3, str "z"⟩]

/-- Chapters 2-5 (overlapping chapters 2-3 of `chA`). -/
def chB : List Chapter :=
  [⟨str "two", 2, str "y"⟩, ⟨str "three", 3, str "z"⟩,
   ⟨str "four", 4, str "w"⟩, ⟨str "five", 5, str "v"⟩]

/-- A single chapter numbered 1. -/
def chF : List Chapter := [⟨str "c", 1, str "x"⟩]

theorem merge_c1_witness :
    contigFrom 1 chA = true ∧ contigFrom 2 chB = true ∧
    mergeBooks mA mA chA chB false =
      .ok (mA, chA ++ chB.drop (1 + chA.length - 2)) :=
  ⟨by decide, by decide,
    (merge_c1_amended mA false chA chB 1 2 (by decide) (by decide)
      (by decide) (by decide) (by decide)).1 (by decide) (by decide)⟩

/-- C1 as stated is false: merging A = chapter 1 with B = chapter 1
(B.last = A.last, so the monotonicity check passes, and B.first ≤ A.last
triggers reconciliation) drops all of B; the reconciled first chapter
number of B is A.last + 1 = 2, so the claim says the merge proceeds, but
the code fails — with the line-148 assertion (an `IndexError` inside the
`assert`), not with `DiscontinuousChapters`. -/
theorem merge_c1_counterexample :
    ¬ (((mergeBooks mA mA chF chF false).toOption.isSome = true) ↔
        reconciledBStart chF chF = some 2) := by
  decide

/-- C2 (amended).  `merge` fails with `MetadataMismatch` iff `force` is
false and the two extracted metadata dictionaries are not *fully* equal —
the cover is compared as the whole (name, bytes) pair, with absence
`(None, None)` equal only to absence, rather than by the §3 equivalence
(bytes compared only when both covers are present).  On mismatch the error
carries both dictionaries with `cover` replaced by the match/mismatch
marker; with `force` the check is skipped entirely. -/
theorem merge_c2_amended (m1 m2 : Meta) (ch1 ch2 : List Chapter)
    (force : Bool) :
    ((force = false ∧ m1 ≠ m2) →
      mergeBooks m1 m2 ch1 ch2 force =
        .error (.metadataMismatch
          (mkDiag m1 (coverMarker m1.cover m2.cover))
          (mkDiag m2 (coverMarker m1.cover m2.cover)))) ∧
    ((force = true ∨ m1 = m2) →
      ∀ d1 d2, mergeBooks m1 m2 ch1 ch2 force ≠
        .error (.metadataMismatch d1 d2)) := by
  constructor
  · intro h
    rw [mergeBooks, if_pos h]
  · intro h d1 d2
    have hneg : ¬(force = false ∧ m1 ≠ m2) := by
      rcases h with h | h
      · intro hc
        rw [h] at hc
        exact absurd hc.1 (by simp)
      · intro hc
        exact hc.2 h
    rw [mergeBooks, if_neg hneg]
    repeat' (split <;> try simp)

/-- Same as `mA` but with the cover file name changed and the cover bytes
identical: §3-equivalent metadata that the code nevertheless rejects. -/
def mACoverPng : Meta := { mA with cover := some (str "cover.png", [7, 7]) }

theorem merge_c2_witness :
    mergeBooks mA mACoverPng chF chF false =
      .error (.metadataMismatch
        (mkDiag mA (coverMarker mA.cover mACoverPng.cover))
        (mkDiag mACoverPng (coverMarker mA.cover mACoverPng.cover))) :=
  (merge_c2_amended mA mACoverPng chF chF false).1 ⟨rfl, by decide⟩

/-- C2 as stated is false: two metadata values that are equivalent in the
§3 sense (all fields but cover equal, covers both present with identical
bytes, differing only in the stored cover file name) still make the merge
fail with `MetadataMismatch` when `force` is false. -/
theorem merge_c2_counterexample :
    metaEquivSpec mA mACoverPng = true ∧
    mergeBooks mA mACoverPng chF chF false =
      .error (.metadataMismatch
        (mkDiag mA (str "__cover_*mis*match__"))
        (mkDiag mACoverPng (str "__cover_*mis*match__"))) := by
  constructor
  · decide
  · rfl

/-! ### Character and title utilities (webnovel2epub.py) -/

/-- Python `str.strip()` whitespace set. -/
def isPyWs (c : Char) : Bool :=
  c = ' ' || c = '\t' || c = '\n' || c = '\r' || c = '\x0b' || c = '\x0c'

/-- Python `str.strip()`. -/
def pyStrip (l : Str) : Str :=
  ((l.dropWhile isPyWs).reverse.dropWhile isPyWs).reverse

/-- `.replace('\n', ' ')` (webnovel2epub.py line 258). -/
def replaceNewlines (l : Str) : Str :=
  l.map fun c => if c = '\n' then ' ' else c

def digitChar (d : Nat) : Char := Char.ofNat (48 + d)

/-- Fuel-based helper for `natDigits` (structural recursion so that the
kernel can evaluate it; the fuel is always sufficient). -/
def natDigitsAux : Nat → Nat → Str
  | 0, _ => []
  | fuel + 1, n =>
    if n < 10 then [digitChar n]
    else natDigitsAux fuel (n / 10) ++ [digitChar (n % 10)]

/-- Decimal digits of `n`, most significant first (the digits
`'{}'.format(n)` interpolates). -/
def natDigits (n : Nat) : Str := natDigitsAux (n + 1) n

def digitVal (c : Char) : Nat := c.toNat - 48

/-- Value of a digit string (what `int(...)` computes on a digit run). -/
def parseDigits (l : Str) : Nat :=
  l.foldl (fun a c => 10 * a + digitVal c) 0

/-- `'{:04}'.format(n)`: left-pad with zeros to width `w`. -/
def padZeros (w : Nat) (l : Str) : Str :=
  List.replicate (w - l.length) '0' ++ l

/-- webnovel2epub.py line 288: the per-chapter item path
`os.path.join('chapters', '{:04}.xhtml'.format(num))`. -/
def chapterHref (num : Nat) : Str :=
  str "chapters/" ++ padZeros 4 (natDigits num) ++ str ".xhtml"

/-- webnovel2epub.py lines 258-261: strip, collapse newlines, then strip a
leading `'{num}\s+'` prefix via `re.match(r'^{}\s+(.*)'.format(num), t)`,
keeping group 1 (everything after the maximal whitespace run; `.` cannot
match a newline but none remain after the replace). -/
def stripNumPrefix (num : Nat) (t : Str) : Str :=
  if (natDigits num).isPrefixOf t then
    match t.drop (natDigits num).length with
    | c :: rest => if isPyWs c then (c :: rest).dropWhile isPyWs else t
    | [] => t
  else t

def cleanupTitle (num : Nat) (t : Str) : Str :=
  stripNumPrefix num (replaceNewlines (pyStrip t))

/-! ### The duplicate-byline regex (webnovel2epub.py lines 274-281)

The code builds the pattern string
`r'^[Cc]hapter\s+{num}\s+-\s+{title-with-()[]-escaped}'` and calls
`re.match` (anchored prefix match).  We model the regex with Mathlib's
`RegularExpression Char`; the fixed prefix is built structurally and the
escaped title is compiled by `compileEscaped`, which supports the regex
constructs `\s`, escaped punctuation, plain characters and the greedy
quantifiers `+`, `*`, `?` on single atoms, and returns `none` (modelling
`re.error` or an unsupported construct) otherwise.  `re.match` semantics
(`pyMatch`) is: some prefix of the text is in the pattern's language. -/

abbrev RE := RegularExpression Char

def oneOf (cs : List Char) : RE :=
  cs.foldr (fun c r => RegularExpression.char c + r) 0

def rePlus (r : RE) : RE := r * r.star

def catList (l : List RE) : RE := l.foldr (· * ·) 1

def litRE (s : Str) : RE := catList (s.map RegularExpression.char)

def wsChars : List Char := [' ', '\t', '\n', '\r', '\x0b', '\x0c']

def wsRE : RE := oneOf wsChars

/-- `re.match(p, s)` succeeds iff some prefix of `s` is in `p`'s
language. -/
def pyMatch (r : RE) (s : Str) : Bool :=
  (List.range (s.length + 1)).any fun n => r.rmatch (s.take n)

/-- webnovel2epub.py line 278: `re.sub(r'([\(\)\[\]])', r'\\\1', t)` —
only parentheses and square brackets are escaped. -/
def escapeTitle (t : Str) : Str :=
  t.flatMap fun c =>
    if c = '(' || c = ')' || c = '[' || c = ']' then ['\\', c] else [c]

/-- Characters that would need regex parsing we do not model (`.`, anchors,
braces, alternation, groups, classes).  A title producing one of these
unescaped makes `compileEscaped` return `none`. -/
def badPlain : List Char :=
  ['.', '^', '$', '|', '(', ')', '[', ']', Char.ofNat 123, Char.ofNat 125]

/-- Compile the escaped-title part of the pattern.  The accumulator holds
compiled atoms in reverse along with a flag telling whether a quantifier
may still be applied to the atom (Python rejects `a++` with `re.error`;
we also conservatively reject lazy quantifiers). -/
def compileEscapedAux : List (RE × Bool) → Str → Option (List (RE × Bool))
  | acc, [] => some acc
  | acc, c :: rest =>
    if c = '+' then
      match acc with
      | (r, true) :: tl => compileEscapedAux ((rePlus r, false) :: tl) rest
      | _ => none
    else if c = '*' then
      match acc with
      | (r, true) :: tl => compileEscapedAux ((r.star, false) :: tl) rest
      | _ => none
    else if c = '?' then
      match acc with
      | (r, true) :: tl => compileEscapedAux ((r + 1, false) :: tl) rest
      | _ => none
    else if c = '\\' then
      match rest with
      | [] => none
      | d :: rest' =>
        if d = 's' then compileEscapedAux ((wsRE, true) :: acc) rest'
        else if d.isAlphanum then none
        else compileEscapedAux ((RegularExpression.char d, true) :: acc) rest'
    else if c ∈ badPlain then none
    else compileEscapedAux ((RegularExpression.char c, true) :: acc) rest

def compileEscaped (t : Str) : Option RE :=
  (compileEscapedAux [] t).map fun acc => catList (acc.reverse.map Prod.fst)

/-- The fixed part `[Cc]hapter\s+{num}\s+-\s+` of the byline pattern. -/
def chapterREparts (num : Nat) : List RE :=
  [oneOf ['C', 'c'], litRE (str "hapter"), rePlus wsRE,
   litRE (natDigits num), rePlus wsRE, litRE (str "-"), rePlus wsRE]

/-- The full byline pattern for chapter `num` with cleaned title `title`
(`none` when the generated pattern is not supported / `re.error`). -/
def chapterRE (num : Nat) (title : Str) : Option RE :=
  (compileEscaped (escapeTitle title)).map fun t =>
    catList (chapterREparts num ++ [t])

/-! ### HTML normalization (webnovel2epub.py lines 257-284)

A chapter fragment is modelled as the list of children of the parsed
document's body; each child carries its tag and its leading text (lxml's
`.text`, with `None` modelled as the empty string, matching its falsiness
in the `if p.text and re.match(...)` guard).  Parsing and `html.tostring`
are modelled as the identity on this structure. -/

structure Elem where
  tag : Str
  text : Str
deriving DecidableEq, Repr

def pTag : Str := str "p"

def headingTags : List Str := [str "h1", str "h2", str "h3", str "h4"]

def bylineTest (num : Nat) (ct : Str) (text : Str) : Option Bool :=
  (chapterRE num ct).map fun r => pyMatch r text

/-- The loop over `/html/body/p[position()<4]` (lines 274-282): scan the
first `k` paragraph children in order, remove the first one with nonempty
text matching the pattern, and `break`.  `none` models `re.error` being
raised at the first actually-evaluated `re.match` call. -/
def removeBylineAux (num : Nat) (ct : Str) :
    Nat → List Elem → Option (List Elem × Bool)
  | _, [] => some ([], false)
  | 0, e :: rest =>
    if e.tag = pTag then some (e :: rest, false)
    else (removeBylineAux num ct 0 rest).map fun p => (e :: p.1, p.2)
  | k' + 1, e :: rest =>
    if e.tag = pTag then
      if e.text ≠ [] then
        match bylineTest num ct e.text with
        | none => none
        | some true => some (rest, true)
        | some false =>
          (removeBylineAux num ct k' rest).map fun p => (e :: p.1, p.2)
      else
        (removeBylineAux num ct k' rest).map fun p => (e :: p.1, p.2)
    else
      (removeBylineAux num ct (k' + 1) rest).map fun p => (e :: p.1, p.2)

def removeByline (num : Nat) (ct : Str) (es : List Elem) :
    Option (List Elem × Bool) :=
  removeBylineAux num ct 3 es

/-- webnovel2epub.py lines 263-284.  `none` models the `IndexError` from
`getchildren()[0]` on a childless body (or `re.error`).  Mirrors the code
exactly, including its quirk: in the not-a-heading branch the `<h1>` is
prepended to the *string* while the byline removal edits the parsed
*tree*, so when a byline paragraph is removed (`regen_html` becomes true)
the re-serialized tree replaces the string and the prepended heading is
lost. -/
def normalizeHtml (ct : Str) (num : Nat) (frag : List Elem) :
    Option (List Elem) :=
  match frag with
  | [] => none
  | e :: rest =>
    if e.tag ∈ headingTags then
      match removeByline num ct (⟨str "h1", ct⟩ :: rest) with
      | none => none
      | some (tree, _) => some tree
    else
      match removeByline num ct (e :: rest) with
      | none => none
      | some (tree, removed) =>
        if removed then some tree else some (⟨str "h1", ct⟩ :: e :: rest)

/-- One chapter through title cleaning plus HTML normalization. -/
def normalizeChapter (title : Str) (num : Nat) (frag : List Elem) :
    Option (Str × List Elem) :=
  match normalizeHtml (cleanupTitle num title) num frag with
  | none => none
  | some h => some (cleanupTitle num title, h)

/-! ### Volume grouping (webnovel2epub.py lines 213-216 and 322-340) -/

/-- Fuel-based helper for `chunks100` (structural recursion so that the
kernel can evaluate it; the fuel is always sufficient). -/
def chunks100Aux {α : Type} : Nat → List α → List (List α)
  | _, [] => []
  | 0, _ :: _ => []
  | fuel + 1, x :: xs => ((x :: xs).take 100) :: chunks100Aux fuel ((x :: xs).drop 100)

/-- `chunks(alist, 100)` (lines 213-216; `volume_incr` is the constant
100 on line 323). -/
def chunks100 {α : Type} (l : List α) : List (List α) :=
  chunks100Aux l.length l

/-- `'Chapters {} - {}'.format(vs, ve)`. -/
def sectionLabel (vs ve : Nat) : Str :=
  str "Chapters " ++ natDigits vs ++ str " - " ++ natDigits ve

/-- The section loop (lines 330-340): one section per chunk, labels
advancing by 100.  The `try/except TypeError` around the optional
`start=`/`end=` keyword arguments affects neither the label nor the
chapters, so it is not modelled. -/
def buildSections {α : Type} (vs : Nat) : List (List α) → List (Str × List α)
  | [] => []
  | c :: rest =>
    (sectionLabel vs (vs + 100 - 1), c) :: buildSections (vs + 100) rest

/-! ### The assembled container and `generate_epub` -/

/-- A table-of-contents entry as ebooklib models it: a plain `Link` or a
`(Section, [Link, ...])` tuple. -/
inductive TocEntry where
  | link (title : Str) (href : Str)
  | sect (label : Str) (links : List (Str × Str))
deriving DecidableEq, Repr

inductive SpineRef where
  | titlepage
  | nav
  | chapter (href : Str)
deriving DecidableEq, Repr

/-- The slice of an in-memory EPUB book that the merge path reads:
the table of contents and the content items keyed by href. -/
structure Book (α : Type) where
  toc : List TocEntry
  items : List (Str × α)
deriving DecidableEq, Repr

/-- The output of `generate_epub` as far as the claims are concerned. -/
structure GenBook where
  items : List (Str × List Elem)
  toc : List TocEntry
  spine : List SpineRef
  guide : List (Str × Str)
deriving DecidableEq, Repr

inductive GenError where
  /-- `chapter_data_list[0]` on line 254 raises `IndexError`. -/
  | emptyBook
  /-- normalization crashed (`getchildren()[0]` / `re.error`). -/
  | malformedContent
  /-- `Image.open(io.BytesIO(cover_data))` on line 313 raises `TypeError`
  when `cover_data` is `None` — the titlepage is built unconditionally. -/
  | coverError
deriving DecidableEq, Repr

/-- All-or-nothing map into `Option` (the Python loop raises at the first
failing chapter; observably, the build either completes or crashes). -/
def mapOpt {α β : Type} (f : α → Option β) : List α → Option (List β)
  | [] => some []
  | x :: xs => (f x).bind fun y => (mapOpt f xs).map fun ys => y :: ys

/-- `generate_epub` (webnovel2epub.py lines 219-404) restricted to the
fields the claims mention.  Chapter data are `(title, num, content)`
triples.  Control flow follows the source: `chapter_data_list[0]` (line
254) fails on an empty list; each chapter is title-cleaned and normalized
(lines 257-292); the titlepage is built unconditionally and opening the
cover (line 313) fails when there is no cover data; sections are chunks
of 100 starting from the rounded-down volume base (lines 322-340); the
spine is `[titlepage, 'nav', *chapters]` (line 387); the guide lists
cover, TOC and the first chapter (lines 388-401). -/
def generateEpub (_novelTitle : Str) (cover : Option (Str × List Nat))
    (chs : List (Str × Nat × List Elem)) : Except GenError GenBook :=
  match chs.head? with
  | none => .error .emptyBook
  | some first =>
    match mapOpt (fun p => normalizeChapter p.1 p.2.1 p.2.2) chs with
    | none => .error .malformedContent
    | some normed =>
      match cover with
      | none => .error .coverError
      | some _ =>
        let nums := chs.map fun p => p.2.1
        let links := (normed.zip nums).map fun q => (q.1.1, chapterHref q.2)
        let base := first.2.1 / 100 * 100 + 1
        .ok {
          items := (normed.zip nums).map fun q => (chapterHref q.2, q.1.2),
          toc := (buildSections base (chunks100 links)).map fun q =>
            TocEntry.sect q.1 q.2,
          spine := .titlepage :: .nav ::
            nums.map fun n => SpineRef.chapter (chapterHref n),
          guide := [(str "titlepage.xhtml", str "cover"),
                    (str "nav.xhtml", str "toc"),
                    (chapterHref first.2.1, str "bodymatter")] }

/-! ### Chapter extraction (merge_books.py lines 41-79) -/

/-- The regex `([0-9]+)\.xhtml$` applied with `re.search` and `int(...)`:
the maximal trailing digit run immediately before a final `.xhtml`.
`none` models `number.group(1)` raising `AttributeError` when there is no
match. -/
def trailingDigits (href : Str) : Str :=
  ((href.take (href.length - 6)).reverse.takeWhile Char.isDigit).reverse

def trailingNum (href : Str) : Option Nat :=
  if (str ".xhtml").isSuffixOf href then
    if trailingDigits href = [] then none
    else some (parseDigits (trailingDigits href))
  else none

def lookupItem {α : Type} (items : List (Str × α)) (href : Str) : Option α :=
  (items.find? fun p => p.1 = href).map Prod.snd

def extractLink {α : Type} (items : List (Str × α)) (title href : Str) :
    Option (Str × Nat × α) :=
  (trailingNum href).bind fun n =>
    (lookupItem items href).map fun c => (title, n, c)

/-- `extract_book_chapters` (merge_books.py lines 41-79).  The Python code
aliases `toc = book.toc`, reverses it in place and pops every entry, so on
success the in-memory book is returned with its toc emptied; the chapter
list is built in original toc order, flattening each section's links, and
the first entry is popped unprocessed (assumed to be the title page) iff
it is a plain `Link`.  `none` models the `AttributeError`/`IndexError`
crashes (empty toc, unparsable href, missing item). -/
def extractEntries {α : Type} (items : List (Str × α)) :
    List TocEntry → Option (List (Str × Nat × α))
  | [] => some []
  | TocEntry.link t h :: rest =>
    (extractLink items t h).bind fun c =>
      (extractEntries items rest).map fun cs => c :: cs
  | TocEntry.sect _ ls :: rest =>
    (mapOpt (fun q => extractLink items q.1 q.2) ls).bind fun cs =>
      (extractEntries items rest).map fun rest' => cs ++ rest'

def extractBookChapters {α : Type} (b : Book α) :
    Option (List (Str × Nat × α) × Book α) :=
  match b.toc with
  | [] => none
  | TocEntry.link _ _ :: rest =>
    (extractEntries b.items rest).map fun cs => (cs, { b with toc := [] })
  | TocEntry.sect lab ls :: rest =>
    (extractEntries b.items (TocEntry.sect lab ls :: rest)).map fun cs =>
      (cs, { b with toc := [] })

/-- The book slice produced by `generate_epub` as `read_epub` would hand
it back to the merge path. -/
def GenBook.toBook (g : GenBook) : Book (List Elem) :=
  { toc := g.toc, items := g.items }

/-! ### Arithmetic facts about the digit rendering -/

theorem digitVal_digitChar {d : Nat} (h : d < 10) :
    digitVal (digitChar d) = d := by
  interval_cases d <;> decide

theorem digitChar_isDigit {d : Nat} (h : d < 10) :
    (digitChar d).isDigit = true := by
  interval_cases d <;> decide

theorem parseDigits_append (l : Str) (c : Char) :
    parseDigits (l ++ [c]) = 10 * parseDigits l + digitVal c := by
  simp [parseDigits, List.foldl_append]

theorem parseDigits_natDigitsAux :
    ∀ n, ∀ fuel, n < fuel → parseDigits (natDigitsAux fuel n) = n := by
  intro n
  induction n using Nat.strong_induction_on with
  | _ n ih =>
    intro fuel hf
    match fuel with
    | f + 1 =>
      by_cases h : n < 10
      · simp [natDigitsAux, h, parseDigits, digitVal_digitChar h]
      · have hd : n / 10 < n := Nat.div_lt_self (by omega) (by omega)
        have hdf : n / 10 < f := by omega
        rw [natDigitsAux, if_neg h, parseDigits_append, ih (n / 10) hd f hdf,
          digitVal_digitChar (Nat.mod_lt n (by omega))]
        omega

theorem parseDigits_natDigits (n : Nat) : parseDigits (natDigits n) = n :=
  parseDigits_natDigitsAux n (n + 1) (Nat.lt_succ_self n)

theorem natDigitsAux_isDigit :
    ∀ n, ∀ fuel, n < fuel → ∀ c ∈ natDigitsAux fuel n, c.isDigit = true := by
  intro n
  induction n using Nat.strong_induction_on with
  | _ n ih =>
    intro fuel hf
    match fuel with
    | f + 1 =>
      by_cases h : n < 10
      · simp [natDigitsAux, h]
        exact digitChar_isDigit h
      · have hd : n / 10 < n := Nat.div_lt_self (by omega) (by omega)
        intro c hc
        rw [natDigitsAux, if_neg h] at hc
        rcases List.mem_append.mp hc with hc | hc
        · exact ih (n / 10) hd f (by omega) c hc
        · simp at hc
          rw [hc]
          exact digitChar_isDigit (Nat.mod_lt n (by omega))

theorem natDigits_isDigit (n : Nat) : ∀ c ∈ natDigits n, c.isDigit = true :=
  natDigitsAux_isDigit n (n + 1) (Nat.lt_succ_self n)

theorem natDigitsAux_ne_nil :
    ∀ n fuel, n < fuel → natDigitsAux fuel n ≠ [] := by
  intro n fuel hf
  match fuel with
  | f + 1 =>
    by_cases h : n < 10
    · simp [natDigitsAux, h]
    · rw [natDigitsAux, if_neg h]
      simp

theorem natDigits_ne_nil (n : Nat) : natDigits n ≠ [] :=
  natDigitsAux_ne_nil n (n + 1) (Nat.lt_succ_self n)

theorem parseDigits_replicate_zero (k : Nat) (l : Str) :
    parseDigits (List.replicate k '0' ++ l) = parseDigits l := by
  induction k with
  | zero => simp
  | succ k ih =>
    have : List.replicate (k + 1) '0' = '0' :: List.replicate k '0' := rfl
    rw [this]
    simpa [parseDigits, digitVal] using ih

theorem parseDigits_padZeros (w : Nat) (l : Str) :
    parseDigits (padZeros w l) = parseDigits l :=
  parseDigits_replicate_zero _ l

theorem padZeros_isDigit (w : Nat) (l : Str)
    (h : ∀ c ∈ l, c.isDigit = true) :
    ∀ c ∈ padZeros w l, c.isDigit = true := by
  intro c hc
  rcases List.mem_append.mp hc with hc | hc
  · have := List.eq_of_mem_replicate hc
    rw [this]
    decide
  · exact h c hc

theorem padZeros_ne_nil {w : Nat} {l : Str} (h : l ≠ []) :
    padZeros w l ≠ [] := by
  intro hcontra
  rcases List.append_eq_nil.mp hcontra with ⟨_, h2⟩
  exact h h2

theorem takeWhile_append_of_all {p : Char → Bool} {a : Str}
    (h : ∀ c ∈ a, p c = true) (b : Str) :
    (a ++ b).takeWhile p = a ++ b.takeWhile p := by
  induction a with
  | nil => simp
  | cons x xs ih =>
    have hx : p x = true := h x (by simp)
    have ih' := ih fun c hc => h c (by simp [hc])
    simp [List.takeWhile_cons, hx, ih']

theorem trailingDigits_chapterHref (n : Nat) :
    trailingDigits (chapterHref n) = padZeros 4 (natDigits n) := by
  have hdig : ∀ c ∈ padZeros 4 (natDigits n), c.isDigit = true :=
    padZeros_isDigit 4 _ (natDigits_isDigit n)
  have hlen : (chapterHref n).length - 6 =
      (str "chapters/" ++ padZeros 4 (natDigits n)).length := by
    simp [chapterHref, str]
  have htake : (chapterHref n).take ((chapterHref n).length - 6) =
      str "chapters/" ++ padZeros 4 (natDigits n) := by
    rw [hlen, chapterHref]
    exact List.take_left _ _
  rw [trailingDigits, htake]
  have hrev : (str "chapters/" ++ padZeros 4 (natDigits n)).reverse =
      (padZeros 4 (natDigits n)).reverse ++ (str "chapters/").reverse := by
    simp
  rw [hrev]
  have hdigr : ∀ c ∈ (padZeros 4 (natDigits n)).reverse, c.isDigit = true :=
    fun c hc => hdig c (List.mem_reverse.mp hc)
  rw [takeWhile_append_of_all hdigr]
  have hsl : ((str "chapters/").reverse).takeWhile Char.isDigit = [] := by
    decide
  rw [hsl, List.append_nil, List.reverse_reverse]

/-- `([0-9]+)\.xhtml$` searched against the hrefs the assembler writes:
the zero-padded digits parse back to the chapter number. -/
theorem trailingNum_chapterHref (n : Nat) :
    trailingNum (chapterHref n) = some n := by
  have hne : padZeros 4 (natDigits n) ≠ [] :=
    padZeros_ne_nil (natDigits_ne_nil n)
  have hsfx : (str ".xhtml").isSuffixOf (chapterHref n) = true := by
    rw [List.isSuffixOf_iff_suffix]
    exact ⟨str "chapters/" ++ padZeros 4 (natDigits n), by
      simp [chapterHref, List.append_assoc]⟩
  rw [trailingNum, if_pos hsfx, trailingDigits_chapterHref, if_neg hne,
    parseDigits_padZeros, parseDigits_natDigits]

/-! ### Chunks and sections lemmas -/

theorem chunks100Aux_flatten {α : Type} :
    ∀ (fuel : Nat) (l : List α), l.length ≤ fuel →
      (chunks100Aux fuel l).flatten = l := by
  intro fuel
  induction fuel with
  | zero =>
    intro l hl
    have : l = [] := List.eq_nil_of_length_eq_zero (by omega)
    simp [this, chunks100Aux]
  | succ f ih =>
    intro l hl
    match l with
    | [] => simp [chunks100Aux]
    | x :: xs =>
      rw [chunks100Aux]
      have hlen : ((x :: xs).drop 100).length ≤ f := by
        rw [List.length_drop]
        simp only [List.length_cons] at hl ⊢
        omega
      simp only [List.flatten_cons, ih _ hlen]
      exact List.take_append_drop 100 (x :: xs)

theorem chunks100_flatten {α : Type} (l : List α) :
    (chunks100 l).flatten = l :=
  chunks100Aux_flatten l.length l (Nat.le_refl _)

theorem chunks100Aux_get? {α : Type} :
    ∀ (fuel : Nat) (l : List α) (k : Nat), l.length ≤ fuel →
      (chunks100Aux fuel l).get? k =
        if 100 * k < l.length then some ((l.drop (100 * k)).take 100)
        else none := by
  intro fuel
  induction fuel with
  | zero =>
    intro l k hl
    have : l = [] := List.eq_nil_of_length_eq_zero (by omega)
    simp [this, chunks100Aux]
  | succ f ih =>
    intro l k hl
    match l with
    | [] => simp [chunks100Aux]
    | x :: xs =>
      rw [chunks100Aux]
      match k with
      | 0 =>
        have : (0 : Nat) < (x :: xs).length := by simp
        simp [this]
      | k' + 1 =>
        have hlen : ((x :: xs).drop 100).length ≤ f := by
          rw [List.length_drop]
          simp only [List.length_cons] at hl ⊢
          omega
        rw [List.get?_cons_succ, ih _ k' hlen]
        rw [List.length_drop, List.drop_drop]
        have harith : 100 + 100 * k' = 100 * (k' + 1) := by ring
        rw [harith]
        by_cases hc : 100 * (k' + 1) < (x :: xs).length
        · rw [if_pos (by omega), if_pos hc]
        · rw [if_neg (by omega), if_neg hc]

theorem chunks100_get? {α : Type} (l : List α) (k : Nat) :
    (chunks100 l).get? k =
      if 100 * k < l.length then some ((l.drop (100 * k)).take 100)
      else none :=
  chunks100Aux_get? l.length l k (Nat.le_refl _)

theorem buildSections_get? {α : Type} :
    ∀ (cs : List (List α)) (vs k : Nat),
      (buildSections vs cs).get? k =
        (cs.get? k).map fun c =>
          (sectionLabel (vs + 100 * k) (vs + 100 * k + 100 - 1), c) := by
  intro cs
  induction cs with
  | nil => intro vs k; simp [buildSections]
  | cons c rest ih =>
    intro vs k
    match k with
    | 0 => simp [buildSections]
    | k' + 1 =>
      rw [buildSections, List.get?_cons_succ, ih (vs + 100) k',
        List.get?_cons_succ]
      have h1 : vs + 100 + 100 * k' = vs + 100 * (k' + 1) := by ring
      rw [h1]

set_option maxRecDepth 200000 in
/-- C7 (confirmed).  The grouper (`chunks` with width 100 plus the section
loop of `generate_epub`) splits a chapter sequence into consecutive runs
of 100 (last run possibly shorter): run `k` of the grouping for a
sequence whose first chapter number is `s` is
`(links.drop (100*k)).take 100` and is labelled
`"Chapters {vs} - {vs+99}"` with `vs = s/100*100 + 1 + 100*k`; in
particular 250 chapters numbered from 1 yield exactly three sections
labelled "Chapters 1 - 100", "Chapters 101 - 200", "Chapters 201 - 300",
the third holding items 201-250 only. -/
theorem volume_c7 :
    (∀ (α : Type) (links : List α), (chunks100 links).flatten = links) ∧
    (∀ (α : Type) (links : List α) (k : Nat),
      (chunks100 links).get? k =
        if 100 * k < links.length
        then some ((links.drop (100 * k)).take 100) else none) ∧
    (∀ (α : Type) (links : List α) (s k : Nat),
      (buildSections (s / 100 * 100 + 1) (chunks100 links)).get? k =
        ((chunks100 links).get? k).map fun run =>
          (sectionLabel (s / 100 * 100 + 1 + 100 * k)
            (s / 100 * 100 + 1 + 100 * k + 99), run)) ∧
    ((buildSections (1 / 100 * 100 + 1) (chunks100 (List.range' 1 250))).map
        Prod.fst =
      [sectionLabel 1 100, sectionLabel 101 200, sectionLabel 201 300]) ∧
    ((buildSections (1 / 100 * 100 + 1) (chunks100 (List.range' 1 250))).map
        Prod.snd =
      [List.range' 1 100, List.range' 101 100, List.range' 201 50]) := by
  refine ⟨fun α links => chunks100_flatten links,
    fun α links k => chunks100_get? links k,
    fun α links s k => ?_, ?_, ?_⟩
  · rw [buildSections_get? (chunks100 links) (s / 100 * 100 + 1) k]
    have : s / 100 * 100 + 1 + 100 * k + 100 - 1 =
        s / 100 * 100 + 1 + 100 * k + 99 := by omega
    rw [this]
  · decide
  · decide

/-- Chapters used in the C8 example. -/
def chsC8 : List (Str × Nat × List Elem) :=
  [(str "one", 1, [⟨str "h2", str "x"⟩]),
   (str "two", 2, [⟨str "h2", str "y"⟩])]

/-- C8 (code bug).  The titlepage is built unconditionally: with no cover,
`generate_epub` crashes with a `TypeError` from
`Image.open(io.BytesIO(None))` (line 313) instead of assembling a book
without a cover page, contradicting the spec's "only if `metadata.cover`
is present".  When a cover *is* present, the spine is
`[titlepage, 'nav', *chapters]` — cover page at position 0, navigation at
position 1, chapters in input (ascending) order after it, as claimed. -/
theorem generate_c8_bug :
    generateEpub (str "T") none chsC8 = .error .coverError ∧
    (generateEpub (str "T") (some (str "cover.jpg", [1])) chsC8).map
        GenBook.spine =
      .ok [SpineRef.titlepage, SpineRef.nav,
           SpineRef.chapter (chapterHref 1), SpineRef.chapter (chapterHref 2)] :=
  ⟨rfl, rfl⟩

/-! ### Extraction lemmas (C9, C10, C3) -/

/-- The links a table-of-contents entry contributes, in order. -/
def entryLinks : TocEntry → List (Str × Str)
  | .link t h => [(t, h)]
  | .sect _ ls => ls

/-- Extraction as the claim words it: drop the first entry iff it is a
plain link, flatten each remaining entry's links in sequence, and read
each chapter as (link title, trailing digit run of the `.xhtml` filename,
looked-up item content). -/
def specExtract {α : Type} (b : Book α) : Option (List (Str × Nat × α)) :=
  match b.toc with
  | [] => none
  | TocEntry.link _ _ :: rest =>
    mapOpt (fun q => extractLink b.items q.1 q.2) (rest.flatMap entryLinks)
  | first :: rest =>
    mapOpt (fun q => extractLink b.items q.1 q.2)
      ((first :: rest).flatMap entryLinks)

theorem mapOpt_append {α β : Type} (f : α → Option β) (a b : List α) :
    mapOpt f (a ++ b) =
      (mapOpt f a).bind fun xs => (mapOpt f b).map fun ys => xs ++ ys := by
  induction a with
  | nil =>
    cases hb : mapOpt f b <;> simp [mapOpt, hb]
  | cons x xs ih =>
    cases hx : f x with
    | none => simp [mapOpt, hx]
    | some y =>
      cases hxs : mapOpt f xs <;> cases hb : mapOpt f b <;>
        simp [mapOpt, hx, ih, hxs, hb]

theorem extractEntries_eq_mapOpt {α : Type} (items : List (Str × α)) :
    ∀ entries : List TocEntry,
      extractEntries items entries =
        mapOpt (fun q => extractLink items q.1 q.2)
          (entries.flatMap entryLinks) := by
  intro entries
  induction entries with
  | nil => simp [extractEntries, mapOpt]
  | cons e rest ih =>
    cases e with
    | link t h =>
      rw [extractEntries, ih]
      have hfl : (TocEntry.link t h :: rest).flatMap entryLinks =
          (t, h) :: rest.flatMap entryLinks := by
        rw [List.flatMap_cons]
        rfl
      rw [hfl]
      simp only [mapOpt]
    | sect lab ls =>
      rw [extractEntries, ih]
      have hfl : (TocEntry.sect lab ls :: rest).flatMap entryLinks =
          ls ++ rest.flatMap entryLinks := by
        rw [List.flatMap_cons]
        rfl
      rw [hfl, mapOpt_append]

/-- C10 (confirmed).  `extract_book_chapters` returns exactly what the
claim describes: the table of contents is processed in order, each
section's links flattened in sequence, each chapter's number taken from
the trailing digit run of its `.xhtml` filename, and the first entry is
skipped (assumed to be the title page) iff it is a plain link rather than
a section; any failure (`AttributeError` on an unparsable href or missing
item, `IndexError` on an empty toc) is propagated identically. -/
theorem extract_c10 {α : Type} (b : Book α) :
    (extractBookChapters b).map Prod.fst = specExtract b := by
  obtain ⟨toc, items⟩ := b
  cases toc with
  | nil => rfl
  | cons first rest =>
    cases first with
    | link t h =>
      simp only [extractBookChapters, specExtract]
      rw [extractEntries_eq_mapOpt]
      cases hx : mapOpt (fun q => extractLink items q.1 q.2)
        (rest.flatMap entryLinks) <;> simp
    | sect lab ls =>
      simp only [extractBookChapters, specExtract]
      rw [extractEntries_eq_mapOpt]
      cases hx : mapOpt (fun q => extractLink items q.1 q.2)
        ((TocEntry.sect lab ls :: rest).flatMap entryLinks) <;> simp

/-- A one-section book used as concrete input for C9/C10. -/
def bookC9 : Book Str :=
  { toc := [TocEntry.sect (str "Chapters 1 - 100")
      [(str "c", str "chapters/0001.xhtml")]],
    items := [(str "chapters/0001.xhtml", str "body")] }

/-- C9 (amended).  Whenever extraction succeeds it hands back the
in-memory book with its table of contents consumed (the Python code
aliases the toc list, reverses it in place and pops every entry), leaving
every other field unchanged; a failed merge still produces no output
container, and the on-disk inputs are never written. -/
theorem extract_c9_amended {α : Type} (b : Book α)
    (cs : List (Str × Nat × α)) (b' : Book α)
    (h : extractBookChapters b = some (cs, b')) :
    b' = { toc := [], items := b.items } := by
  rw [extractBookChapters] at h
  split at h
  · exact absurd h (by simp)
  · rcases Option.map_eq_some'.mp h with ⟨cs', _, heq⟩
    have := congrArg Prod.snd heq
    simpa using this.symm
  · rcases Option.map_eq_some'.mp h with ⟨cs', _, heq⟩
    have := congrArg Prod.snd heq
    simpa using this.symm

theorem extract_c9_witness :
    (⟨[], [(str "chapters/0001.xhtml", str "body")]⟩ : Book Str) =
      { toc := [], items := bookC9.items } :=
  extract_c9_amended bookC9 [(str "c", 1, str "body")]
    ⟨[], [(str "chapters/0001.xhtml", str "body")]⟩ (by decide)

/-- C9 as stated is false: extraction does not merely read its input —
on the concrete book `bookC9` it returns the in-memory container with its
toc emptied, which differs from the input container. -/
theorem extract_c9_counterexample :
    (extractBookChapters bookC9).map Prod.snd ≠ some bookC9 ∧
    (extractBookChapters bookC9).map Prod.snd =
      some { toc := [], items := bookC9.items } := by
  constructor
  · decide
  · decide

/-! ### Round-trip: assemble then extract (C3) -/

theorem mapOpt_length {α β : Type} (f : α → Option β) :
    ∀ (l : List α) (ys : List β), mapOpt f l = some ys →
      ys.length = l.length := by
  intro l
  induction l with
  | nil =>
    intro ys h
    simp [mapOpt] at h
    simp [← h]
  | cons x xs ih =>
    intro ys h
    rw [mapOpt] at h
    cases hx : f x with
    | none => rw [hx] at h; simp at h
    | some y =>
      rw [hx] at h
      cases hxs : mapOpt f xs with
      | none => rw [hxs] at h; simp at h
      | some zs =>
        rw [hxs] at h
        simp at h
        rw [← h]
        simp [ih zs hxs]

theorem normalizeChapter_fst {t : Str} {n : Nat} {c : List Elem}
    {p : Str × List Elem} (h : normalizeChapter t n c = some p) :
    p.1 = cleanupTitle n t := by
  rw [normalizeChapter] at h
  cases hh : normalizeHtml (cleanupTitle n t) n c with
  | none => rw [hh] at h; exact absurd h (by simp)
  | some out =>
    rw [hh] at h
    simp at h
    rw [← h]

/-- On success the per-chapter pass yields the links
`(cleanupTitle num title, chapterHref num)` in order. -/
theorem links_of_norm :
    ∀ (chs : List (Str × Nat × List Elem)) (normed : List (Str × List Elem)),
      mapOpt (fun p => normalizeChapter p.1 p.2.1 p.2.2) chs = some normed →
      ((normed.zip (chs.map fun p => p.2.1)).map
          fun q => (q.1.1, chapterHref q.2)) =
        chs.map fun p => (cleanupTitle p.2.1 p.1, chapterHref p.2.1) := by
  intro chs
  induction chs with
  | nil =>
    intro normed h
    simp [mapOpt] at h
    simp [← h]
  | cons p ps ih =>
    intro normed h
    rw [mapOpt] at h
    cases hf : normalizeChapter p.1 p.2.1 p.2.2 with
    | none => rw [hf] at h; simp at h
    | some y =>
      rw [hf] at h
      cases hrec : mapOpt (fun p => normalizeChapter p.1 p.2.1 p.2.2) ps with
      | none => rw [hrec] at h; simp at h
      | some ys =>
        rw [hrec] at h
        simp at h
        rw [← h]
        simp only [List.map_cons, List.zip_cons_cons, List.map_cons]
        rw [normalizeChapter_fst hf, ih ys hrec]

theorem buildSections_snd {α : Type} :
    ∀ (cs : List (List α)) (vs : Nat),
      (buildSections vs cs).map Prod.snd = cs := by
  intro cs
  induction cs with
  | nil => intro vs; rfl
  | cons c rest ih =>
    intro vs
    simp [buildSections, ih]

theorem flatMap_sect (l : List (Str × List (Str × Str))) :
    ((l.map fun q => TocEntry.sect q.1 q.2).flatMap entryLinks) =
      (l.map Prod.snd).flatten := by
  induction l with
  | nil => rfl
  | cons q rest ih =>
    simp only [List.map_cons, List.flatMap_cons, List.flatten_cons, ih]
    rfl

theorem lookupItem_of_mem {α : Type} :
    ∀ (items : List (Str × α)) (href : Str),
      href ∈ items.map Prod.fst → ∃ v, lookupItem items href = some v := by
  intro items
  induction items with
  | nil => intro href h; simp at h
  | cons kv rest ih =>
    intro href h
    by_cases hk : kv.1 = href
    · exact ⟨kv.2, by rw [lookupItem, List.find?_cons_of_pos _ (by simp [hk])]; rfl⟩
    · have hmem : href ∈ rest.map Prod.fst := by
        rcases List.mem_map.mp h with ⟨q, hq, hqe⟩
        rcases List.mem_cons.mp hq with hq | hq
        · exact absurd (hq ▸ hqe : kv.1 = href) hk
        · exact List.mem_map.mpr ⟨q, hq, hqe⟩
      obtain ⟨v, hv⟩ := ih href hmem
      refine ⟨v, ?_⟩
      rw [lookupItem, List.find?_cons_of_neg _ (by simp [hk])]
      rw [lookupItem] at hv
      exact hv

theorem mapOpt_pointwise {α β γ : Type} (f : α → Option β) (proj : β → γ)
    (g : α → γ) :
    ∀ l : List α, (∀ x ∈ l, ∃ y, f x = some y ∧ proj y = g x) →
      ∃ ys, mapOpt f l = some ys ∧ ys.map proj = l.map g := by
  intro l
  induction l with
  | nil => intro _; exact ⟨[], rfl, rfl⟩
  | cons x xs ih =>
    intro h
    obtain ⟨y, hy, hpy⟩ := h x (by simp)
    obtain ⟨ys, hys, hpys⟩ := ih fun z hz => h z (by simp [hz])
    exact ⟨y :: ys, by simp [mapOpt, hy, hys], by simp [hpy, hpys]⟩

theorem chunks100_cons {α : Type} (x : α) (xs : List α) :
    chunks100 (x :: xs) =
      ((x :: xs).take 100) ::
        chunks100Aux xs.length ((x :: xs).drop 100) := by
  rw [chunks100, List.length_cons, chunks100Aux]

theorem extractBook_sections {α : Type} (items : List (Str × α))
    (s0 : Str × List (Str × Str)) (srest : List (Str × List (Str × Str))) :
    extractBookChapters
        { toc := ((s0 :: srest).map fun q => TocEntry.sect q.1 q.2),
          items := items } =
      (mapOpt (fun q => extractLink items q.1 q.2)
          (((s0 :: srest).map Prod.snd).flatten)).map
        fun cs => (cs, { toc := [], items := items }) := by
  rw [← flatMap_sect]
  simp only [List.map_cons, extractBookChapters]
  rw [extractEntries_eq_mapOpt]

/-- Flattening the chapters owned by the sections built over the chunks of
`x :: xs` recovers `x :: xs`. -/
theorem sections_flatten {α : Type} (vs : Nat) (x : α) (xs : List α) :
    ((((sectionLabel vs (vs + 100 - 1), (x :: xs).take 100) ::
        buildSections (vs + 100)
          (chunks100Aux xs.length ((x :: xs).drop 100))).map
        Prod.snd).flatten) = x :: xs := by
  simp only [List.map_cons, buildSections_snd, List.flatten_cons]
  have hfuel : ((x :: xs).drop 100).length ≤ xs.length := by
    rw [List.length_drop]
    simp only [List.length_cons]
    omega
  rw [chunks100Aux_flatten xs.length _ hfuel]
  exact List.take_append_drop 100 _

theorem zip_items_keys {nrm : List (Str × List Elem)} {nums : List Nat}
    (h : nums.length ≤ nrm.length) :
    ((nrm.zip nums).map (fun q => (chapterHref q.2, q.1.2))).map Prod.fst =
      nums.map chapterHref := by
  rw [List.map_map]
  have hz := List.map_snd_zip nrm nums h
  have hcomp : (Prod.fst ∘ fun q : (Str × List Elem) × Nat =>
      (chapterHref q.2, q.1.2)) = chapterHref ∘ Prod.snd := rfl
  rw [hcomp, ← List.map_map, hz]

set_option maxHeartbeats 1000000 in
/-- C3 (amended).  Assembling a container with `generate_epub` and then
extracting it the way merge step 1 does yields the same ordered chapter
numbers, with the titles equal to the *cleaned* input titles
(`strip`, newline collapse, numeric-prefix strip); when the input titles
are already in cleaned form this is the identity on (title, number)
pairs. -/
theorem roundtrip_c3_amended (t : Str) (cover : Option (Str × List Nat))
    (chs : List (Str × Nat × List Elem)) (g : GenBook)
    (hok : generateEpub t cover chs = .ok g) :
    (extractBookChapters g.toBook).map
        (fun p => p.1.map fun q => (q.1, q.2.1)) =
      some (chs.map fun p => (cleanupTitle p.2.1 p.1, p.2.1)) := by
  cases chs with
  | nil => simp [generateEpub] at hok
  | cons c0 crest =>
    cases hnorm : mapOpt (fun p => normalizeChapter p.1 p.2.1 p.2.2)
        (c0 :: crest) with
    | none =>
      rw [generateEpub] at hok
      simp only [List.head?_cons, hnorm] at hok
      exact absurd hok (by simp)
    | some normed =>
      cases hcov : cover with
      | none =>
        rw [generateEpub] at hok
        simp only [List.head?_cons, hnorm, hcov] at hok
        exact absurd hok (by simp)
      | some cv =>
        rw [generateEpub] at hok
        simp only [List.head?_cons, hnorm, hcov, Except.ok.injEq] at hok
        subst hok
        have hlen := mapOpt_length _ _ _ hnorm
        cases normed with
        | nil => simp at hlen
        | cons n0 nrest =>
          have hL := links_of_norm _ _ hnorm
          simp only [GenBook.toBook]
          rw [hL, List.map_cons, chunks100_cons, buildSections,
            extractBook_sections, sections_flatten]
          have hC : ((cleanupTitle c0.2.1 c0.1, chapterHref c0.2.1) ::
              crest.map fun p => (cleanupTitle p.2.1 p.1, chapterHref p.2.1)) =
              (c0 :: crest).map
                fun p => (cleanupTitle p.2.1 p.1, chapterHref p.2.1) := by
            rw [List.map_cons]
          rw [hC]
          set I := ((n0 :: nrest).zip ((c0 :: crest).map fun p => p.2.1)).map
            (fun q => (chapterHref q.2, q.1.2)) with hIdef
          set L := (c0 :: crest).map
            (fun p => (cleanupTitle p.2.1 p.1, chapterHref p.2.1)) with hLdef
          have hnums : ((c0 :: crest).map fun p => p.2.1).length ≤
              (n0 :: nrest).length := by
            rw [List.length_map, ← hlen]
          have hkeys : I.map Prod.fst =
              ((c0 :: crest).map fun p => p.2.1).map chapterHref := by
            rw [hIdef]
            exact zip_items_keys hnums
          have hpw : ∀ x ∈ L,
              ∃ y, extractLink I x.1 x.2 = some y ∧
                (y.1, y.2.1) = (x.1, (trailingNum x.2).getD 0) := by
            intro x hx
            rw [hLdef] at hx
            obtain ⟨p, hp, rfl⟩ := List.mem_map.mp hx
            have hmem : chapterHref p.2.1 ∈ I.map Prod.fst := by
              rw [hkeys]
              exact List.mem_map.mpr ⟨p.2.1,
                List.mem_map.mpr ⟨p, hp, rfl⟩, rfl⟩
            obtain ⟨v, hv⟩ := lookupItem_of_mem _ _ hmem
            refine ⟨(cleanupTitle p.2.1 p.1, p.2.1, v), ?_, ?_⟩
            · simp only [extractLink, trailingNum_chapterHref,
                Option.some_bind, hv]
              rfl
            · show (cleanupTitle p.2.1 p.1, p.2.1) =
                (cleanupTitle p.2.1 p.1,
                  (trailingNum (chapterHref p.2.1)).getD 0)
              rw [trailingNum_chapterHref]
              rfl
          obtain ⟨ys, hys, hproj⟩ := mapOpt_pointwise
            (fun q => extractLink I q.1 q.2)
            (fun y => (y.1, y.2.1))
            (fun q => (q.1, (trailingNum q.2).getD 0)) L hpw
          rw [hys]
          simp only [Option.map_some', Option.some.injEq]
          rw [hproj, hLdef]
          simp [List.map_map, Function.comp, trailingNum_chapterHref]

/-- The concrete container assembled from `chsC8`. -/
def genC3 : GenBook :=
  ((generateEpub (str "T") (some (str "cover.jpg", [1])) chsC8).toOption).getD
    ⟨[], [], [], []⟩

theorem roundtrip_c3_witness :
    (extractBookChapters genC3.toBook).map
        (fun p => p.1.map fun q => (q.1, q.2.1)) =
      some (chsC8.map fun p => (cleanupTitle p.2.1 p.1, p.2.1)) :=
  roundtrip_c3_amended (str "T") (some (str "cover.jpg", [1])) chsC8 genC3
    (by rfl)

/-- A chapter whose scraped title still carries the ordinal prefix. -/
def chsC3x : List (Str × Nat × List Elem) :=
  [(str "1 Foo", 1, [⟨str "h2", str "x"⟩])]

/-- The concrete container assembled from `chsC3x`. -/
def genC3x : GenBook :=
  ((generateEpub (str "T") (some (str "cover.jpg", [1])) chsC3x).toOption).getD
    ⟨[], [], [], []⟩

/-- C3 as stated is false: assembling the chapter titled "1 Foo" (number
1) and extracting the container back yields the title "Foo" — the
assembler stores the *cleaned* title, so extraction does not return the
same titles that were assembled. -/
theorem roundtrip_c3_counterexample :
    generateEpub (str "T") (some (str "cover.jpg", [1])) chsC3x =
      .ok genC3x ∧
    (extractBookChapters genC3x.toBook).map
        (fun p => p.1.map fun q => q.1) = some [str "Foo"] ∧
    str "Foo" ≠ str "1 Foo" := by
  refine ⟨by rfl, by decide, by decide⟩

/-! ### Normalization (C4, C5) -/

/-- C5 (code bug).  When the first child of the body is not a heading and
a byline paragraph is removed, the `<h1>` that was prepended to the
content *string* is lost, because `regen_html` makes the code re-serialize
the parsed *tree*, which never contained the prepended heading: the
chapter "<p>Chapter 1 - Foo</p><p>body</p>" with title "Foo" normalizes to
"<p>body</p>" with no heading at all, while the claim requires the result
to begin with `<h1>Foo</h1>`. -/
theorem normalize_c5_bug :
    normalizeHtml (str "Foo") 1
        [⟨str "p", str "Chapter 1 - Foo"⟩, ⟨str "p", str "body"⟩] =
      some [⟨str "p", str "body"⟩] ∧
    (Elem.mk (str "p") (str "body")).tag ≠ str "h1" := by
  constructor
  · decide
  · decide

/-- Elements other than paragraphs pass through the byline scan
untouched. -/
theorem removeBylineAux_nonP {num : Nat} {ct : Str} {e : Elem}
    {l : List Elem} (h : ¬(e.tag = pTag)) (k : Nat) :
    removeBylineAux num ct k (e :: l) =
      (removeBylineAux num ct k l).map fun p => (e :: p.1, p.2) := by
  cases k with
  | zero => simp only [removeBylineAux]; rw [if_neg h]
  | succ k' => simp only [removeBylineAux]; rw [if_neg h]

/-- C4 (amended).  Normalization applied to its own output is the identity
provided that (i) the first child of the original fragment is a heading
(otherwise the lost-heading path of C5 breaks idempotence), (ii) the
cleaned title is a fixed point of the title cleaning (a title like
"42 42 Foo" cleans to "42 Foo" and then again to "Foo"), and (iii) the
byline scan finds nothing to remove in the normalized output (removing a
paragraph can shift a fourth, matching paragraph into the three-paragraph
window of a second pass). -/
theorem normalize_c4_amended (title : Str) (num : Nat) (e : Elem)
    (rest : List Elem) (out : List Elem)
    (hhead : e.tag ∈ headingTags)
    (hfix : cleanupTitle num (cleanupTitle num title) = cleanupTitle num title)
    (hout : normalizeHtml (cleanupTitle num title) num (e :: rest) = some out)
    (hsecond : removeByline num (cleanupTitle num title) out =
      some (out, false)) :
    normalizeChapter (cleanupTitle num title) num out =
      some (cleanupTitle num title, out) := by
  rw [normalizeHtml, if_pos hhead] at hout
  cases hrb : removeByline num (cleanupTitle num title)
      (⟨str "h1", cleanupTitle num title⟩ :: rest) with
  | none => rw [hrb] at hout; exact absurd hout (by simp)
  | some p =>
    obtain ⟨tree, b⟩ := p
    rw [hrb] at hout
    simp only [Option.some.injEq] at hout
    subst hout
    rw [removeByline,
      removeBylineAux_nonP (show ¬(str "h1" = pTag) by decide)] at hrb
    rcases Option.map_eq_some'.mp hrb with ⟨⟨tl, b'⟩, _, heq⟩
    have htree : tree = ⟨str "h1", cleanupTitle num title⟩ :: tl := by
      have := congrArg Prod.fst heq
      simpa using this.symm
    subst htree
    rw [normalizeChapter, hfix, normalizeHtml,
      if_pos (show (str "h1") ∈ headingTags by decide)]
    rw [removeByline] at hsecond ⊢
    rw [hsecond]

theorem normalize_c4_witness :
    normalizeChapter (cleanupTitle 1 (str "T")) 1 [⟨str "h1", str "T"⟩] =
      some (cleanupTitle 1 (str "T"), [⟨str "h1", str "T"⟩]) :=
  normalize_c4_amended (str "T") 1 ⟨str "h2", str "x"⟩ [] [⟨str "h1", str "T"⟩]
    (by decide) (by decide) (by decide) (by decide)

/-! ### The byline matcher (C6)

Claim-side matchers, built from the claim's words: the text must begin
with the word "chapter", whitespace, the chapter number, whitespace, a
dash, whitespace, and then the title taken *literally*.  `litByline` is
the version the code actually implements for regex-free titles (only the
first letter of "chapter" is case-insensitive); `claimByline` is the
matcher exactly as the claim words it (the whole word case-insensitive,
every regex metacharacter in the title escaped, i.e. the title literal).
-/

/-- Consume a literal prefix. -/
def dropLit : Str → Str → Option Str
  | [], s => some s
  | _ :: _, [] => none
  | c :: w, d :: s => if c = d then dropLit w s else none

/-- Consume one-or-more whitespace greedily (`\s+`). -/
def eatWs1 : Str → Option Str
  | [] => none
  | c :: rest => if isPyWs c then some (rest.dropWhile isPyWs) else none

/-- Consume `[Cc]`. -/
def headCc : Str → Option Str
  | [] => none
  | c :: rest => if c = 'C' ∨ c = 'c' then some rest else none

def litByline (num : Nat) (title : Str) (s : Str) : Bool :=
  (((((((headCc s).bind (dropLit (str "hapter"))).bind eatWs1).bind
      (dropLit (natDigits num))).bind eatWs1).bind
      (dropLit (str "-"))).bind eatWs1).elim false
    fun s6 => title.isPrefixOf s6

def lowerAscii (c : Char) : Char :=
  if 'A' ≤ c ∧ c ≤ 'Z' then Char.ofNat (c.toNat + 32) else c

/-- Consume a literal prefix, ASCII-case-insensitively. -/
def dropLitCI : Str → Str → Option Str
  | [], s => some s
  | _ :: _, [] => none
  | c :: w, d :: s => if lowerAscii d = c then dropLitCI w s else none

/-- The byline matcher exactly as the claim words it. -/
def claimByline (num : Nat) (title : Str) (s : Str) : Bool :=
  ((((((dropLitCI (str "chapter") s).bind eatWs1).bind
      (dropLit (natDigits num))).bind eatWs1).bind
      (dropLit (str "-"))).bind eatWs1).elim false
    fun s6 => title.isPrefixOf s6

/-- Characters the code's pattern treats literally: everything except the
unescaped regex metacharacters (parentheses and square brackets are fine
because the code escapes them). -/
def plainChar (c : Char) : Bool :=
  !(c == '\\' || c == '+' || c == '*' || c == '?' || c == '.' ||
    c == '^' || c == '$' || c == '|' || c == Char.ofNat 123 ||
    c == Char.ofNat 125)

/-- The removal loop as the claim words it: among the first three
paragraph children, remove the first one whose nonempty text matches the
literal byline; at most one is removed. -/
def removeBylineSpecAux (test : Str → Bool) :
    Nat → List Elem → List Elem × Bool
  | _, [] => ([], false)
  | 0, e :: rest =>
    if e.tag = pTag then (e :: rest, false)
    else
      ((removeBylineSpecAux test 0 rest).1.cons e,
        (removeBylineSpecAux test 0 rest).2)
  | k' + 1, e :: rest =>
    if e.tag = pTag then
      if e.text ≠ [] ∧ test e.text then (rest, true)
      else
        ((removeBylineSpecAux test k' rest).1.cons e,
          (removeBylineSpecAux test k' rest).2)
    else
      ((removeBylineSpecAux test (k' + 1) rest).1.cons e,
        (removeBylineSpecAux test (k' + 1) rest).2)

def removeBylineSpec (num : Nat) (title : Str) (es : List Elem) :
    List Elem × Bool :=
  removeBylineSpecAux (litByline num title) 3 es

/-- C6 as stated is false: the code escapes only parentheses and square
brackets, so a title containing another regex metacharacter is matched as
a regex, not literally.  With title "A+" and chapter 1, the paragraph
"Chapter 1 - A" does not match the claim's literal pattern
"Chapter 1 - A+", yet normalization removes it (the code's pattern
`[Cc]hapter\s+1\s+-\s+A+` matches). -/
theorem byline_c6_counterexample :
    normalizeHtml (str "A+") 1
        [⟨str "h2", str "x"⟩, ⟨str "p", str "Chapter 1 - A"⟩] =
      some [⟨str "h1", str "A+"⟩] ∧
    claimByline 1 (str "A+") (str "Chapter 1 - A") = false := by
  constructor
  · decide
  · decide

/-! ### Regex facts needed for the C6 equivalence -/

theorem catList_cons (r : RE) (rs : List RE) :
    catList (r :: rs) = r * catList rs := rfl

theorem litRE_rmatch : ∀ (w u : Str), (litRE w).rmatch u = true ↔ u = w := by
  intro w
  induction w with
  | nil =>
    intro u
    have : litRE [] = 1 := rfl
    rw [this]
    exact RegularExpression.one_rmatch_iff u
  | cons c w ih =>
    intro u
    have hl : litRE (c :: w) = RegularExpression.char c * litRE w := rfl
    rw [hl]
    constructor
    · intro h
      rcases (RegularExpression.mul_rmatch_iff _ _ _).mp h with
        ⟨t, v, rfl, ht, hv⟩
      rw [(RegularExpression.char_rmatch_iff c t).mp ht, (ih v).mp hv]
      rfl
    · intro h
      subst h
      refine (RegularExpression.mul_rmatch_iff _ _ _).mpr
        ⟨[c], w, rfl, ?_, ?_⟩
      · exact (RegularExpression.char_rmatch_iff c [c]).mpr rfl
      · exact (ih w).mpr rfl

theorem oneOf_rmatch : ∀ (cs : List Char) (u : Str),
    (oneOf cs).rmatch u = true ↔ ∃ c ∈ cs, u = [c] := by
  intro cs
  induction cs with
  | nil =>
    intro u
    have : oneOf [] = 0 := rfl
    rw [this]
    simp [RegularExpression.zero_rmatch]
  | cons c cs ih =>
    intro u
    have hl : oneOf (c :: cs) = RegularExpression.char c + oneOf cs := rfl
    rw [hl]
    constructor
    · intro h
      rcases (RegularExpression.add_rmatch_iff _ _ _).mp h with h | h
      · exact ⟨c, by simp, (RegularExpression.char_rmatch_iff c u).mp h⟩
      · rcases (ih u).mp h with ⟨d, hd, hu⟩
        exact ⟨d, by simp [hd], hu⟩
    · rintro ⟨d, hd, rfl⟩
      rcases List.mem_cons.mp hd with rfl | hd
      · exact (RegularExpression.add_rmatch_iff _ _ _).mpr
          (Or.inl ((RegularExpression.char_rmatch_iff d [d]).mpr rfl))
      · exact (RegularExpression.add_rmatch_iff _ _ _).mpr
          (Or.inr ((ih [d]).mpr ⟨d, hd, rfl⟩))

theorem isPyWs_mem (c : Char) : isPyWs c = true ↔ c ∈ wsChars := by
  simp [isPyWs, wsChars]
  tauto

theorem flatten_map_singleton (l : Str) :
    (l.map fun c => [c]).flatten = l := by
  induction l with
  | nil => rfl
  | cons c rest ih => simp [ih]

theorem wsPlus_rmatch (u : Str) :
    (rePlus wsRE).rmatch u = true ↔
      u ≠ [] ∧ ∀ c ∈ u, isPyWs c = true := by
  constructor
  · intro h
    rcases (RegularExpression.mul_rmatch_iff _ _ _).mp h with
      ⟨t, v, rfl, ht, hv⟩
    rcases (oneOf_rmatch wsChars t).mp ht with ⟨c, hc, rfl⟩
    rcases (RegularExpression.star_rmatch_iff wsRE v).mp hv with
      ⟨S, rfl, hS⟩
    refine ⟨by simp, ?_⟩
    intro d hd
    rcases List.mem_cons.mp hd with rfl | hd
    · exact (isPyWs_mem d).mpr hc
    · rcases List.mem_flatten.mp hd with ⟨t', ht', hdt⟩
      rcases (oneOf_rmatch wsChars t').mp (hS t' ht').2 with ⟨e, he, rfl⟩
      rcases List.mem_singleton.mp hdt with rfl
      exact (isPyWs_mem d).mpr he
  · rintro ⟨hne, hws⟩
    match u, hne with
    | c :: rest, _ =>
      refine (RegularExpression.mul_rmatch_iff _ _ _).mpr
        ⟨[c], rest, rfl, ?_, ?_⟩
      · exact (oneOf_rmatch wsChars [c]).mpr
          ⟨c, (isPyWs_mem c).mp (hws c (by simp)), rfl⟩
      · refine (RegularExpression.star_rmatch_iff wsRE rest).mpr
          ⟨rest.map fun d => [d], (flatten_map_singleton rest).symm, ?_⟩
        intro t' ht'
        rcases List.mem_map.mp ht' with ⟨d, hd, rfl⟩
        refine ⟨by simp, ?_⟩
        exact (oneOf_rmatch wsChars [d]).mpr
          ⟨d, (isPyWs_mem d).mp (hws d (by simp [hd])), rfl⟩

/-- `re.match` prefix semantics as a proposition. -/
def PMatch (r : RE) (s : Str) : Prop :=
  ∃ p q : Str, s = p ++ q ∧ r.rmatch p = true

theorem pyMatch_iff_PMatch (r : RE) (s : Str) :
    pyMatch r s = true ↔ PMatch r s := by
  rw [pyMatch, List.any_eq_true]
  constructor
  · rintro ⟨n, _, hm⟩
    exact ⟨s.take n, s.drop n, (List.take_append_drop n s).symm, hm⟩
  · rintro ⟨p, q, rfl, hm⟩
    refine ⟨p.length, ?_, ?_⟩
    · rw [List.mem_range]
      simp only [List.length_append]
      omega
    · rw [List.take_left]
      exact hm

theorem PMatch_mul (a b : RE) (s : Str) :
    PMatch (a * b) s ↔
      ∃ u rest, s = u ++ rest ∧ a.rmatch u = true ∧ PMatch b rest := by
  constructor
  · rintro ⟨p, q, rfl, hm⟩
    rcases (RegularExpression.mul_rmatch_iff _ _ _).mp hm with
      ⟨t, v, rfl, ht, hv⟩
    exact ⟨t, v ++ q, by simp, ht, ⟨v, q, rfl, hv⟩⟩
  · rintro ⟨u, rest, rfl, hu, ⟨p, q, rfl, hp⟩⟩
    refine ⟨u ++ p, q, by simp, ?_⟩
    exact (RegularExpression.mul_rmatch_iff _ _ _).mpr ⟨u, p, rfl, hu, hp⟩

theorem PMatch_one (s : Str) : PMatch 1 s :=
  ⟨[], s, rfl, (RegularExpression.one_rmatch_iff []).mpr rfl⟩

/-! ### Plain titles compile to their literal regex -/

theorem escapeTitle_nil : escapeTitle [] = [] := rfl

theorem escapeTitle_cons (c : Char) (rest : Str) :
    escapeTitle (c :: rest) =
      (if c = '(' || c = ')' || c = '[' || c = ']' then ['\\', c]
       else [c]) ++ escapeTitle rest := by
  simp only [escapeTitle, List.flatMap_cons]

theorem compileEscapedAux_plain :
    ∀ (t : Str) (acc : List (RE × Bool)),
      (∀ c ∈ t, plainChar c = true) →
      compileEscapedAux acc (escapeTitle t) =
        some ((t.map fun c =>
          ((RegularExpression.char c : RE), true)).reverse ++ acc) := by
  intro t
  induction t with
  | nil =>
    intro acc _
    simp [escapeTitle_nil, compileEscapedAux]
  | cons c rest ih =>
    intro acc h
    have hc := h c (by simp)
    have hrest : ∀ d ∈ rest, plainChar d = true := fun d hd => h d (by simp [hd])
    simp only [plainChar, Bool.not_eq_true', Bool.or_eq_false_iff,
      beq_eq_false_iff_ne, ne_eq] at hc
    obtain ⟨⟨⟨⟨⟨⟨⟨⟨⟨hbs, hplus⟩, hstar⟩, hq⟩, hdot⟩, hcaret⟩, hdollar⟩,
      hpipe⟩, hlb⟩, hrb⟩ := hc
    rw [escapeTitle_cons]
    by_cases hb : (c = '(' || c = ')' || c = '[' || c = ']') = true
    · rw [if_pos hb]
      simp only [Bool.or_eq_true, decide_eq_true_eq] at hb
      have hstep : compileEscapedAux acc ('\\' :: c :: escapeTitle rest) =
          compileEscapedAux ((RegularExpression.char c, true) :: acc)
            (escapeTitle rest) := by
        rcases hb with ((rfl | rfl) | rfl) | rfl <;>
          simp [compileEscapedAux]
      rw [List.cons_append, List.singleton_append, hstep,
        ih _ hrest]
      simp
    · rw [if_neg hb]
      simp only [Bool.or_eq_true, decide_eq_true_eq, not_or] at hb
      obtain ⟨⟨⟨hp1, hp2⟩, hp3⟩, hp4⟩ := hb
      have hbad : ¬(c ∈ badPlain) := by
        simp only [badPlain, List.mem_cons, List.not_mem_nil, or_false]
        push_neg
        refine ⟨hdot, hcaret, hdollar, hpipe, hp1, hp2, hp3, hp4, hlb, hrb⟩
      have hstep : compileEscapedAux acc (c :: escapeTitle rest) =
          compileEscapedAux ((RegularExpression.char c, true) :: acc)
            (escapeTitle rest) := by
        rw [compileEscapedAux.eq_def]
        simp only []
        rw [if_neg hplus, if_neg hstar, if_neg hq, if_neg hbs, if_neg hbad]
      rw [List.singleton_append, hstep, ih _ hrest]
      simp

theorem compileEscaped_plain (t : Str)
    (h : ∀ c ∈ t, plainChar c = true) :
    compileEscaped (escapeTitle t) = some (litRE t) := by
  rw [compileEscaped, compileEscapedAux_plain t [] h]
  simp only [Option.map_some', List.append_nil, List.reverse_reverse,
    litRE, List.map_map]
  rfl

/-! ### Characterizations of the literal-parser building blocks -/

theorem dropLit_iff : ∀ (w s r : Str), dropLit w s = some r ↔ s = w ++ r := by
  intro w
  induction w with
  | nil =>
    intro s r
    rw [dropLit]
    simp only [Option.some.injEq, List.nil_append]
  | cons c w ih =>
    intro s r
    cases s with
    | nil => simp [dropLit]
    | cons d s' =>
      by_cases hc : c = d
      · subst hc
        rw [dropLit, if_pos rfl, ih s' r]
        simp
      · rw [dropLit, if_neg hc]
        constructor
        · intro hcontra
          exact absurd hcontra (by simp)
        · intro hcontra
          rw [List.cons_append] at hcontra
          injection hcontra with h1 _
          exact absurd h1.symm hc

theorem eatWs1_some {s r : Str} (h : eatWs1 s = some r) :
    ∃ w, s = w ++ r ∧ w ≠ [] ∧ ∀ c ∈ w, isPyWs c = true := by
  cases s with
  | nil => exact absurd h (by simp [eatWs1])
  | cons c rest =>
    rw [eatWs1] at h
    by_cases hws : isPyWs c = true
    · rw [if_pos hws] at h
      simp only [Option.some.injEq] at h
      refine ⟨c :: rest.takeWhile isPyWs, ?_, by simp, ?_⟩
      · rw [← h, List.cons_append, List.takeWhile_append_dropWhile]
      · intro d hd
        rcases List.mem_cons.mp hd with rfl | hd
        · exact hws
        · exact List.mem_takeWhile_imp hd
    · rw [if_neg hws] at h
      exact absurd h (by simp)

theorem dropWhile_append_of_all {p : Char → Bool} {a : Str}
    (h : ∀ c ∈ a, p c = true) (b : Str) :
    (a ++ b).dropWhile p = b.dropWhile p := by
  induction a with
  | nil => simp
  | cons x xs ih =>
    have hx : p x = true := h x (by simp)
    have ih' := ih fun c hc => h c (by simp [hc])
    simp [List.dropWhile_cons, hx, ih']

theorem eatWs1_append_nonws {w : Str} (hne : w ≠ [])
    (hws : ∀ c ∈ w, isPyWs c = true) {d : Char} (hd : isPyWs d = false)
    (r : Str) : eatWs1 (w ++ d :: r) = some (d :: r) := by
  match w, hne with
  | c :: w', _ =>
    rw [List.cons_append, eatWs1, if_pos (hws c (by simp))]
    rw [dropWhile_append_of_all (fun e he => hws e (by simp [he]))]
    rw [List.dropWhile_cons]
    simp [hd]

theorem eatWs1_append_isSome {w : Str} (hne : w ≠ [])
    (hws : ∀ c ∈ w, isPyWs c = true) (r : Str) :
    ∃ r', eatWs1 (w ++ r) = some r' := by
  match w, hne with
  | c :: w', _ =>
    rw [List.cons_append, eatWs1, if_pos (hws c (by simp))]
    exact ⟨_, rfl⟩

theorem isPrefixOf_append (w r : Str) : w.isPrefixOf (w ++ r) = true := by
  rw [List.isPrefixOf_iff_prefix]
  exact List.prefix_append w r

theorem isPrefixOf_some {w s : Str} (h : w.isPrefixOf s = true) :
    ∃ r, s = w ++ r := by
  rcases List.isPrefixOf_iff_prefix.mp h with ⟨t, ht⟩
  exact ⟨t, ht.symm⟩

theorem digit_not_ws {c : Char} (h : c.isDigit = true) : isPyWs c = false := by
  cases hpw : isPyWs c with
  | false => rfl
  | true =>
    exfalso
    have := (isPyWs_mem c).mp hpw
    simp only [wsChars, List.mem_cons, List.not_mem_nil, or_false] at this
    rcases this with rfl | rfl | rfl | rfl | rfl | rfl <;>
      exact absurd h (by decide)

theorem natDigits_head_nonws (num : Nat) :
    ∃ d ds, natDigits num = d :: ds ∧ isPyWs d = false := by
  cases hnd : natDigits num with
  | nil => exact absurd hnd (natDigits_ne_nil num)
  | cons d ds =>
    refine ⟨d, ds, rfl, digit_not_ws ?_⟩
    exact natDigits_isDigit num d (by rw [hnd]; simp)

theorem headCc_some {s r : Str} (h : headCc s = some r) :
    ∃ c, (c = 'C' ∨ c = 'c') ∧ s = c :: r := by
  cases s with
  | nil => exact absurd h (by simp [headCc])
  | cons c rest =>
    rw [headCc] at h
    by_cases hc : c = 'C' ∨ c = 'c'
    · rw [if_pos hc] at h
      simp only [Option.some.injEq] at h
      exact ⟨c, hc, by rw [h]⟩
    · rw [if_neg hc] at h
      exact absurd h (by simp)

theorem headCc_Cc {c : Char} (hc : c = 'C' ∨ c = 'c') (x : Str) :
    headCc (c :: x) = some x := by
  rw [headCc, if_pos hc]

theorem dropLit_self (w r : Str) : dropLit w (w ++ r) = some r :=
  (dropLit_iff _ _ _).mpr rfl

/-- The matched text decomposes the way the literal parser consumes it. -/
theorem PMatch_of_litByline {num : Nat} {title s : Str}
    (h : litByline num title s = true) :
    PMatch (catList (chapterREparts num ++ [litRE title])) s := by
  rw [litByline] at h
  cases h1 : headCc s with
  | none => rw [h1] at h; simp at h
  | some s1 =>
  rw [h1] at h
  simp only [Option.some_bind] at h
  cases h2 : dropLit (str "hapter") s1 with
  | none => rw [h2] at h; simp at h
  | some s2 =>
  rw [h2] at h
  simp only [Option.some_bind] at h
  cases h3 : eatWs1 s2 with
  | none => rw [h3] at h; simp at h
  | some s3 =>
  rw [h3] at h
  simp only [Option.some_bind] at h
  cases h4 : dropLit (natDigits num) s3 with
  | none => rw [h4] at h; simp at h
  | some s4 =>
  rw [h4] at h
  simp only [Option.some_bind] at h
  cases h5 : eatWs1 s4 with
  | none => rw [h5] at h; simp at h
  | some s5 =>
  rw [h5] at h
  simp only [Option.some_bind] at h
  cases h6 : dropLit (str "-") s5 with
  | none => rw [h6] at h; simp at h
  | some s6 =>
  rw [h6] at h
  simp only [Option.some_bind] at h
  cases h7 : eatWs1 s6 with
  | none => rw [h7] at h; simp at h
  | some s7 =>
  rw [h7] at h
  simp only [Option.elim] at h
  obtain ⟨c, hcC, rfl⟩ := headCc_some h1
  have hs1 := (dropLit_iff _ _ _).mp h2
  obtain ⟨w1, hs2, w1ne, w1ws⟩ := eatWs1_some h3
  have hs3 := (dropLit_iff _ _ _).mp h4
  obtain ⟨w2, hs4, w2ne, w2ws⟩ := eatWs1_some h5
  have hs5 := (dropLit_iff _ _ _).mp h6
  obtain ⟨w3, hs6, w3ne, w3ws⟩ := eatWs1_some h7
  obtain ⟨q, hq⟩ := isPrefixOf_some h
  subst hs1 hs2 hs3 hs4 hs5 hs6 hq
  refine (PMatch_mul _ _ _).mpr ⟨[c], _, rfl, (oneOf_rmatch _ _).mpr
    ⟨c, by rcases hcC with rfl | rfl <;> simp, rfl⟩, ?_⟩
  refine (PMatch_mul _ _ _).mpr ⟨str "hapter", _, rfl,
    (litRE_rmatch _ _).mpr rfl, ?_⟩
  refine (PMatch_mul _ _ _).mpr ⟨w1, _, rfl,
    (wsPlus_rmatch _).mpr ⟨w1ne, w1ws⟩, ?_⟩
  refine (PMatch_mul _ _ _).mpr ⟨natDigits num, _, rfl,
    (litRE_rmatch _ _).mpr rfl, ?_⟩
  refine (PMatch_mul _ _ _).mpr ⟨w2, _, rfl,
    (wsPlus_rmatch _).mpr ⟨w2ne, w2ws⟩, ?_⟩
  refine (PMatch_mul _ _ _).mpr ⟨str "-", _, rfl,
    (litRE_rmatch _ _).mpr rfl, ?_⟩
  refine (PMatch_mul _ _ _).mpr ⟨w3, _, rfl,
    (wsPlus_rmatch _).mpr ⟨w3ne, w3ws⟩, ?_⟩
  exact (PMatch_mul _ _ _).mpr ⟨title, q, rfl,
    (litRE_rmatch _ _).mpr rfl, PMatch_one q⟩

/-- The forced-parse direction: any prefix match of the byline pattern is
found by the greedy literal parser (the whitespace runs are forced because
each is followed by a non-whitespace character). -/
theorem litByline_of_PMatch {num : Nat} {title s : Str}
    (hheadws : ∀ c rest, title = c :: rest → isPyWs c = false)
    (h : PMatch (catList (chapterREparts num ++ [litRE title])) s) :
    litByline num title s = true := by
  rcases (PMatch_mul _ _ _).mp h with ⟨u1, r1, hs, h1, h⟩
  rcases (PMatch_mul _ _ _).mp h with ⟨u2, r2, hr1, h2, h⟩
  rcases (PMatch_mul _ _ _).mp h with ⟨u3, r3, hr2, h3, h⟩
  rcases (PMatch_mul _ _ _).mp h with ⟨u4, r4, hr3, h4, h⟩
  rcases (PMatch_mul _ _ _).mp h with ⟨u5, r5, hr4, h5, h⟩
  rcases (PMatch_mul _ _ _).mp h with ⟨u6, r6, hr5, h6, h⟩
  rcases (PMatch_mul _ _ _).mp h with ⟨u7, r7, hr6, h7, h⟩
  rcases (PMatch_mul _ _ _).mp h with ⟨u8, r8, hr7, h8, _⟩
  obtain ⟨c, hc, rfl⟩ := (oneOf_rmatch _ _).mp h1
  have hcor : c = 'C' ∨ c = 'c' := by simpa using hc
  have hu2 := (litRE_rmatch _ _).mp h2
  obtain ⟨u3ne, u3ws⟩ := (wsPlus_rmatch _).mp h3
  have hu4 := (litRE_rmatch _ _).mp h4
  obtain ⟨u5ne, u5ws⟩ := (wsPlus_rmatch _).mp h5
  have hu6 := (litRE_rmatch _ _).mp h6
  obtain ⟨u7ne, u7ws⟩ := (wsPlus_rmatch _).mp h7
  have hu8 := (litRE_rmatch _ _).mp h8
  subst hu2 hu4 hu6 hu8
  subst hr7 hr6 hr5 hr4 hr3 hr2 hr1 hs
  obtain ⟨d, ds, hnd, hdnw⟩ := natDigits_head_nonws num
  rw [litByline, List.singleton_append, headCc_Cc hcor]
  simp only [Option.some_bind]
  rw [dropLit_self]
  simp only [Option.some_bind]
  rw [hnd, List.cons_append, eatWs1_append_nonws u3ne u3ws hdnw]
  simp only [Option.some_bind]
  rw [← List.cons_append, ← hnd, dropLit_self]
  simp only [Option.some_bind]
  have hdash : (str "-") ++ (u7 ++ (u8 ++ r8)) =
      '-' :: (u7 ++ (u8 ++ r8)) := rfl
  rw [hdash, eatWs1_append_nonws u5ne u5ws (by decide)]
  simp only [Option.some_bind]
  have hdash2 : ('-' :: (u7 ++ (u8 ++ r8)) : Str) =
      (str "-") ++ (u7 ++ (u8 ++ r8)) := rfl
  rw [hdash2, dropLit_self]
  simp only [Option.some_bind]
  cases htitle : u8 with
  | nil =>
    obtain ⟨r', e7⟩ := eatWs1_append_isSome u7ne u7ws r8
    rw [List.nil_append, e7]
    simp only [Option.elim]
    rw [List.isPrefixOf_iff_prefix]
    exact List.nil_prefix
  | cons c8 t' =>
    have hc8 : isPyWs c8 = false := hheadws c8 t' htitle
    rw [List.cons_append, eatWs1_append_nonws u7ne u7ws hc8,
      ← List.cons_append]
    simp only [Option.elim]
    exact isPrefixOf_append (c8 :: t') r8

/-- For a title whose characters the pattern treats literally (and which
does not begin with whitespace, as cleaned titles never do), the code's
regex test is exactly the literal byline matcher. -/
theorem bylineTest_eq_litByline (num : Nat) (title s : Str)
    (hplain : ∀ c ∈ title, plainChar c = true)
    (hheadws : ∀ c rest, title = c :: rest → isPyWs c = false) :
    bylineTest num title s = some (litByline num title s) := by
  rw [bylineTest, chapterRE, compileEscaped_plain title hplain]
  simp only [Option.map_some']
  congr 1
  cases hl : litByline num title s with
  | false =>
    cases hm : pyMatch (catList (chapterREparts num ++ [litRE title])) s with
    | false => rfl
    | true =>
      exfalso
      have hres := litByline_of_PMatch hheadws
        ((pyMatch_iff_PMatch _ _).mp hm)
      rw [hl] at hres
      exact Bool.false_ne_true hres
  | true =>
    exact (pyMatch_iff_PMatch _ _).mpr (PMatch_of_litByline hl)

theorem removeBylineAux_bound (num : Nat) (ct : Str) :
    ∀ (l : List Elem) (k : Nat) (r : List Elem × Bool),
      removeBylineAux num ct k l = some r →
      (r.2 = true → r.1.length + 1 = l.length) ∧
      (r.2 = false → r.1 = l) := by
  intro l
  induction l with
  | nil =>
    intro k r h
    simp only [removeBylineAux, Option.some.injEq] at h
    subst h
    exact ⟨by simp, fun _ => rfl⟩
  | cons e rest ih =>
    intro k r h
    by_cases hp : e.tag = pTag
    · cases k with
      | zero =>
        simp only [removeBylineAux, if_pos hp, Option.some.injEq] at h
        subst h
        exact ⟨by simp, fun _ => rfl⟩
      | succ k' =>
        simp only [removeBylineAux, if_pos hp] at h
        by_cases ht : e.text ≠ []
        · rw [if_pos ht] at h
          cases hbt : bylineTest num ct e.text with
          | none => rw [hbt] at h; exact absurd h (by simp)
          | some b' =>
            rw [hbt] at h
            cases b' with
            | true =>
              simp only [Option.some.injEq] at h
              subst h
              exact ⟨fun _ => by simp, by simp⟩
            | false =>
              rcases Option.map_eq_some'.mp h with ⟨r', haux, heq⟩
              subst heq
              obtain ⟨ihl, ihr⟩ := ih k' r' haux
              constructor
              · intro hb
                simp only [List.length_cons]
                rw [ihl hb]
              · intro hb
                simp only [List.cons.injEq]
                exact ⟨trivial, ihr hb⟩
        · rw [if_neg ht] at h
          rcases Option.map_eq_some'.mp h with ⟨r', haux, heq⟩
          subst heq
          obtain ⟨ihl, ihr⟩ := ih k' r' haux
          constructor
          · intro hb
            simp only [List.length_cons]
            rw [ihl hb]
          · intro hb
            simp only [List.cons.injEq]
            exact ⟨trivial, ihr hb⟩
    · rw [removeBylineAux_nonP hp k] at h
      rcases Option.map_eq_some'.mp h with ⟨r', haux, heq⟩
      subst heq
      obtain ⟨ihl, ihr⟩ := ih k r' haux
      constructor
      · intro hb
        simp only [List.length_cons]
        rw [ihl hb]
      · intro hb
        simp only [List.cons.injEq]
        exact ⟨trivial, ihr hb⟩

theorem removeBylineAux_spec_agree (num : Nat) (title : Str)
    (hplain : ∀ c ∈ title, plainChar c = true)
    (hheadws : ∀ c rest, title = c :: rest → isPyWs c = false) :
    ∀ (l : List Elem) (k : Nat),
      removeBylineAux num title k l =
        some (removeBylineSpecAux (litByline num title) k l) := by
  intro l
  induction l with
  | nil => intro k; cases k <;> rfl
  | cons e rest ih =>
    intro k
    by_cases hp : e.tag = pTag
    · cases k with
      | zero =>
        simp only [removeBylineAux, removeBylineSpecAux, if_pos hp]
      | succ k' =>
        by_cases ht : e.text = []
        · simp only [removeBylineAux, removeBylineSpecAux, if_pos hp]
          rw [if_neg (by simpa using ht),
            if_neg (by simp [ht])]
          rw [ih k']
          simp
        · have heq := bylineTest_eq_litByline num title e.text hplain hheadws
          simp only [removeBylineAux, removeBylineSpecAux, if_pos hp]
          rw [if_pos (by simpa using ht), heq]
          cases hlb : litByline num title e.text with
          | true =>
            rw [if_pos ⟨by simpa using ht, rfl⟩]
          | false =>
            rw [if_neg (by simp)]
            rw [ih k']
            simp
    · cases k with
      | zero =>
        simp only [removeBylineAux, removeBylineSpecAux, if_neg hp]
        rw [ih 0]
        simp
      | succ k' =>
        simp only [removeBylineAux, removeBylineSpecAux, if_neg hp]
        rw [ih (k' + 1)]
        simp

/-- C6 (amended).  At most one paragraph is ever removed (and when
nothing is removed the fragment is unchanged); and for titles made only
of characters the code's pattern treats literally — regex metacharacters
other than the escaped parentheses and square brackets excluded — and
not beginning with whitespace, the code removes exactly the first of the
first three paragraph children whose nonempty text matches the byline
*literally*, where "literally" means: `Chapter` or `chapter` (only the
first letter is case-insensitive), whitespace, the chapter number,
whitespace, `-`, whitespace, then the title verbatim. -/
theorem byline_c6_amended :
    (∀ (num : Nat) (ct : Str) (l l' : List Elem) (b : Bool),
        removeByline num ct l = some (l', b) →
        (b = true → l'.length + 1 = l.length) ∧ (b = false → l' = l)) ∧
    (∀ (num : Nat) (title : Str) (es : List Elem),
        (∀ c ∈ title, plainChar c = true) →
        (∀ c rest, title = c :: rest → isPyWs c = false) →
        removeByline num title es =
          some (removeBylineSpec num title es)) := by
  constructor
  · intro num ct l l' b h
    exact removeBylineAux_bound num ct l 3 (l', b) h
  · intro num title es hplain hheadws
    exact removeBylineAux_spec_agree num title hplain hheadws es 3

theorem byline_c6_witness :
    removeByline 1 (str "Foo")
        [⟨str "p", str "intro"⟩, ⟨str "p", str "Chapter 1 - Foo"⟩,
         ⟨str "p", str "x"⟩] =
      some (removeBylineSpec 1 (str "Foo")
        [⟨str "p", str "intro"⟩, ⟨str "p", str "Chapter 1 - Foo"⟩,
         ⟨str "p", str "x"⟩]) ∧
    removeBylineSpec 1 (str "Foo")
        [⟨str "p", str "intro"⟩, ⟨str "p", str "Chapter 1 - Foo"⟩,
         ⟨str "p", str "x"⟩] =
      ([⟨str "p", str "intro"⟩, ⟨str "p", str "x"⟩], true) :=
  ⟨byline_c6_amended.2 1 (str "Foo") _ (by decide)
      (fun c rest h => by injection h with h1 _; subst h1; decide),
    by decide⟩

/-- C4 as stated is false: normalizing the chapter titled "42 42 Foo"
(number 42) yields title "42 Foo", and normalizing that output again
yields title "Foo" with the heading rewritten — the second application
changes the result, so normalization is not idempotent. -/
theorem normalize_c4_counterexample :
    normalizeChapter (str "42 42 Foo") 42 [⟨str "h2", str "x"⟩] =
      some (str "42 Foo", [⟨str "h1", str "42 Foo"⟩]) ∧
    normalizeChapter (str "42 Foo") 42 [⟨str "h1", str "42 Foo"⟩] =
      some (str "Foo", [⟨str "h1", str "Foo"⟩]) ∧
    (str "Foo", [Elem.mk (str "h1") (str "Foo")]) ≠
      (str "42 Foo", [Elem.mk (str "h1") (str "42 Foo")]) := by
  refine ⟨by decide, by decide, by decide⟩

end Webnovel
